import Mathlib

/-!
# Heap-sort benchmark (`first.cpp`): embedding and verified properties

The program sorts `std::vector<T>` values with a hand-written heap sort
(`heapify`, `simple_heapsort`) and with the library pair
`std::make_heap` / `std::sort_heap` (`std_heapsort`), checks the result with a
linear scan (`verify`) and averages wall-clock timings (`with_time`,
`estimate`).

Conventions of the embedding

* a `std::vector<T>` is a `List α`; the element type carries a linear order;
* every operation returns `Except Fault _`: `Fault.thrown msg` is a C++
  exception carrying `msg`, `Fault.undefined` is undefined behaviour (an access
  outside the vector, a signed overflow, a division by zero);
* `size_t` is 64 bits wide and `int` is 32 bits wide; the subtraction done in
  `size_t` and the narrowing of a `size_t` or of a `long long` to `int` are
  written out with their moduli.  A `std::vector` holds fewer than `2^63`
  elements, so the products `2 * i + 1` and `2 * i + 2` formed by `heapify` for
  an index `i` inside the vector never wrap and are plain natural numbers;
* the pseudo-random source and the clock are outside the program and enter as
  streams of an environment;
* `heapify_traced` and `estimate_traced` repeat `heapify` and `estimate` and
  return, with the result, the log of the accesses and calls made; they return
  what the plain functions return (`heapify_traced_spec`,
  `estimate_traced_erase`).  `main` keeps the text written to standard output
  and the list of its events.
-/

namespace HeapBench

/-! ## Machine integers -/

/-- Number of values of `size_t`. -/
def SIZE_MOD : Nat := 2 ^ 64

/-- Number of values of `int`. -/
def INT_MOD : Nat := 2 ^ 32

/-- Largest value of `int`. -/
def INT_MAX : Int := 2 ^ 31 - 1

/-- Smallest value of `int`. -/
def INT_MIN : Int := -(2 ^ 31)

/-- Subtraction `a - b` carried out in `size_t`: the difference when it is not
negative, and `2^64` more than the difference otherwise (wrap-around). -/
def size_sub (a b : Nat) : Nat :=
  if b % SIZE_MOD ≤ a % SIZE_MOD then a % SIZE_MOD - b % SIZE_MOD
  else SIZE_MOD - (b % SIZE_MOD - a % SIZE_MOD)

/-- Narrowing of an integer value to `int`: reduction modulo `2^32` into the
range `[-2^31, 2^31)`. -/
def narrow (x : Int) : Int :=
  if x % (INT_MOD : Int) < 2 ^ 31 then x % (INT_MOD : Int) else x % (INT_MOD : Int) - (INT_MOD : Int)

/-- Initialisation of an `int` from a `size_t` value: the narrowing `narrow`
of a natural number, computed on its residue modulo `2^32` (the value C++20
prescribes and compilers for two's-complement targets produce). -/
def to_int (x : Nat) : Int :=
  if x % INT_MOD < 2 ^ 31 then Int.ofNat (x % INT_MOD)
  else Int.negSucc (INT_MOD - 1 - x % INT_MOD)

/-- Whether an integer is representable as an `int`. -/
def fits_int (x : Int) : Prop := INT_MIN ≤ x ∧ x ≤ INT_MAX

instance (x : Int) : Decidable (fits_int x) := by
  unfold fits_int; infer_instance

/-! ## Faults and loops -/

/-- Abnormal outcomes of the program. -/
inductive Fault where
  | thrown (msg : String)
  | undefined
  deriving DecidableEq, Repr

/-- The loop `for (int i = k - 1; i >= 0; --i) body(i)`: `k` iterations at
indices `k - 1, ..., 0`. -/
def count_down {σ : Type} (body : Nat → σ → Except Fault σ) : Nat → σ → Except Fault σ
  | 0, s => .ok s
  | k + 1, s =>
    match body k s with
    | .error e => .error e
    | .ok s' => count_down body k s'

/-- The loop `for (int t = 0; t < k; ++t) body()`, whose body does not use the
counter: `k` iterations. -/
def repeat_loop {σ : Type} (body : σ → Except Fault σ) : Nat → σ → Except Fault σ
  | 0, s => .ok s
  | k + 1, s =>
    match body s with
    | .error e => .error e
    | .ok s' => repeat_loop body k s'

/-! ## The outside world and `generate` -/

/-- What the program takes from outside: the successive results of
`std::rand()`, the conversion `static_cast<T>`, and for the `k`-th call of
`with_time` the value of `duration_cast<milliseconds>(end - start).count()`. -/
structure Env (α : Type) where
  rand : Nat → Int
  cast : Int → α
  millis : Nat → Int

/-- Progress through the outside streams: how many random numbers were drawn
and how many timed calls were made. -/
structure World where
  rand_calls : Nat
  timed_calls : Nat
  deriving DecidableEq, Repr

/-- The function `generate` (lines 14-21): `size` successive random numbers. -/
def generate {α : Type} (env : Env α) (w : World) (size : Nat) : List α × World :=
  ((List.range size).map (fun k => env.cast (env.rand (w.rand_calls + k))),
    { w with rand_calls := w.rand_calls + size })

/-- The vector generated for the `k`-th pass of `estimate` (warmups first),
when the run starts in the outside state `w`: each pass draws `size` random
numbers. -/
def nth_sequence {α : Type} (env : Env α) (w : World) (size k : Nat) : List α :=
  (generate env { w with rand_calls := w.rand_calls + k * size } size).1

/-- Sum of the elapsed milliseconds of the first `j` timed calls after the
outside state `w`. -/
def elapsed_sum {α : Type} (env : Env α) (w : World) (j : Nat) : Int :=
  ((List.range j).map (fun i => env.millis (w.timed_calls + i))).sum

/-- Sum of the values `with_time` returns for the first `j` timed calls after
the outside state `w`: the elapsed milliseconds narrowed to `int`. -/
def narrowed_sum {α : Type} (env : Env α) (w : World) (j : Nat) : Int :=
  ((List.range j).map (fun i => narrow (env.millis (w.timed_calls + i)))).sum

/-! ## `heapify` and `simple_heapsort` -/

/-- The expression `v[i]`: reading outside the vector is undefined. -/
def read {α : Type} (v : List α) (i : Nat) : Except Fault α :=
  match v[i]? with
  | some a => .ok a
  | none => .error .undefined

/-- The call `std::swap(v[i], v[j])`. -/
def swap {α : Type} (v : List α) (i j : Nat) : Except Fault (List α) :=
  match v[i]?, v[j]? with
  | some a, some b => .ok ((v.set i b).set j a)
  | _, _ => .error .undefined

section Sorting

variable {α : Type} [LinearOrder α]

/-- Lines 25-32 of `heapify`: the index `largest` after the two comparisons.
The conjunctions short-circuit, so an element is read only after its index was
compared with `n`. -/
def heapify_largest (v : List α) (n i : Nat) : Except Fault Nat :=
  let l := 2 * i + 1
  let r := 2 * i + 2
  let first : Except Fault Nat :=
    if l < n then
      match read v l, read v i with
      | .ok a, .ok b => .ok (if b < a then l else i)
      | _, _ => .error .undefined
    else .ok i
  match first with
  | .error e => .error e
  | .ok largest =>
    if r < n then
      match read v r, read v largest with
      | .ok a, .ok b => .ok (if b < a then r else largest)
      | _, _ => .error .undefined
    else .ok largest

/-- The function `heapify` (lines 23-38): sift the element at `i` down inside
`v[0..n)`.  The recursive call is on a child index, which is larger than `i`
and below `n`, so the recursion is well founded on `n - i`. -/
def heapify (v : List α) (n i : Nat) : Except Fault (List α) :=
  match h : heapify_largest v n i with
  | .error e => .error e
  | .ok largest =>
    if largest ≠ i then
      match swap v i largest with
      | .error e => .error e
      | .ok w => heapify w n largest
    else .ok v
termination_by n - i
decreasing_by
  rename_i hne
  have hrange : largest = i ∨ (i < largest ∧ largest < n) := by
    unfold heapify_largest at h
    simp only at h
    split at h
    · cases h
    · rename_i m hfirst
      have hm : m = i ∨ (i < m ∧ m < n) := by
        split at hfirst
        · split at hfirst
          · injection hfirst with hfirst
            split at hfirst
            · right; omega
            · left; omega
          · cases hfirst
        · injection hfirst with hfirst
          left; omega
      split at h
      · split at h
        · injection h with h
          split at h
          · right; omega
          · rw [← h]; exact hm
        · cases h
      · injection h with h
        rw [← h]; exact hm
  omega

/-- Start value of the build loop, `int i = v.size() / 2 - 1`. -/
def build_start (n : Nat) : Int := to_int (size_sub (n / 2) 1)

/-- Start value of the extraction loop, `int i = n - 1`. -/
def extract_start (n : Nat) : Int := to_int (size_sub n 1)

/-- Body of the extraction loop: `std::swap(v[0], v[i]); heapify(v, i, 0);`. -/
def extract_step (i : Nat) (v : List α) : Except Fault (List α) :=
  match swap v 0 i with
  | .error e => .error e
  | .ok w => heapify w i 0

/-- The build phase of `simple_heapsort` (lines 42-44). -/
def build_heap (v : List α) : Except Fault (List α) :=
  count_down (fun i w => heapify w v.length i) (build_start v.length + 1).toNat v

/-- The function `simple_heapsort` (lines 40-50).  A loop
`for (int i = s; i >= 0; --i)` runs `s + 1` times when `s >= 0` and not at all
otherwise. -/
def simple_heapsort (v : List α) : Except Fault (List α) :=
  match build_heap v with
  | .error e => .error e
  | .ok w => count_down extract_step (extract_start v.length + 1).toNat w

/-! ## `std_heapsort` -/

/-- Non-descending order as the verifier scans it: every element is at least
its predecessor. -/
def nondescending (v : List α) : Prop :=
  ∀ k (_ : k < v.length), 0 < k → v[k - 1] ≤ v[k]

/-- Max-heap property of the prefix `v[0..n)`: every node below `n` other than
the root is at most its parent. -/
def is_max_heap (v : List α) (n : Nat) : Prop :=
  ∀ k (_ : k < v.length), 0 < k → k < n → v[k] ≤ v[(k - 1) / 2]

/-- The two library routines `std_heapsort` calls, `std::make_heap` and
`std::sort_heap` of `<algorithm>`, with the contract the C++ standard gives
them: both permute the range, `make_heap` leaves a max-heap, and `sort_heap`
leaves a heap in non-descending order. -/
structure HeapLibrary (α : Type) [LinearOrder α] where
  make_heap : List α → List α
  sort_heap : List α → List α
  make_heap_perm : ∀ v, (make_heap v).Perm v
  make_heap_heap : ∀ v, is_max_heap (make_heap v) v.length
  sort_heap_perm : ∀ v, is_max_heap v v.length → (sort_heap v).Perm v
  sort_heap_sorted : ∀ v, is_max_heap v v.length → nondescending (sort_heap v)

/-- The function `std_heapsort` (lines 52-56). -/
def std_heapsort (lib : HeapLibrary α) (v : List α) : List α :=
  lib.sort_heap (lib.make_heap v)

/-! ## `verify` -/

/-- The loop of `verify` from index `i >= 1` on. -/
def verify_from (v : List α) (i : Nat) : Except Fault Unit :=
  if i < v.length then
    match read v i, read v (i - 1) with
    | .ok a, .ok b =>
      if a < b then .error (.thrown "Verification failed") else verify_from v (i + 1)
    | _, _ => .error .undefined
  else .ok ()
termination_by v.length - i

/-- The function `verify` (lines 58-63). -/
def verify (v : List α) : Except Fault Unit := verify_from v 1

/-- An inversion: an index `i` with `1 <= i < len(v)` and `v[i] < v[i-1]`. -/
def has_inversion (v : List α) : Prop :=
  ∃ i, ∃ _ : i < v.length, 0 < i ∧ v[i] < v[i - 1]

/-! ## Timing harness -/

/-- Global `WARMUPS` (line 11). -/
def WARMUPS : Int := 1

/-- Global `TEST_RUNS` (line 12). -/
def TEST_RUNS : Int := 5

/-- The function `with_time` (lines 65-72): run the strategy, verify, and
return the elapsed milliseconds narrowed to `int`. -/
def with_time (env : Env α) (w : World) (v : List α)
    (f : List α → Except Fault (List α)) : Except Fault (Int × World) :=
  match f v with
  | .error e => .error e
  | .ok out =>
    match verify out with
    | .error e => .error e
    | .ok _ => .ok (narrow (env.millis w.timed_calls), { w with timed_calls := w.timed_calls + 1 })

/-- Body of the warmup loop (lines 77-78). -/
def warmup_pass (env : Env α) (size : Nat) (f : List α → Except Fault (List α))
    (w : World) : Except Fault World :=
  match f (generate env w size).1 with
  | .error e => .error e
  | .ok _ => .ok (generate env w size).2

/-- Body of the measured loop (lines 82-83) on the pair of the outside state
and `elapsed`; the signed addition is undefined when it overflows. -/
def measured_pass (env : Env α) (size : Nat) (f : List α → Except Fault (List α))
    (s : World × Int) : Except Fault (World × Int) :=
  match with_time env (generate env s.1 size).2 (generate env s.1 size).1 f with
  | .error e => .error e
  | .ok (t, w) => if fits_int (s.2 + t) then .ok (w, s.2 + t) else .error .undefined

/-- The quotient `a / b` of two `int`s: truncation toward zero, undefined for
a zero divisor and for `INT_MIN / -1`. -/
def int_div (a b : Int) : Except Fault Int :=
  if b = 0 ∨ (a = INT_MIN ∧ b = -1) then .error .undefined else .ok (Int.tdiv a b)

/-- The function `estimate` (lines 74-86). -/
def estimate (env : Env α) (w : World) (size : Nat)
    (f : List α → Except Fault (List α)) : Except Fault (Int × World) :=
  match repeat_loop (warmup_pass env size f) WARMUPS.toNat w with
  | .error e => .error e
  | .ok w1 =>
    match repeat_loop (measured_pass env size f) TEST_RUNS.toNat (w1, 0) with
    | .error e => .error e
    | .ok (w2, elapsed) =>
      match int_div elapsed TEST_RUNS with
      | .error e => .error e
      | .ok avg => .ok (avg, w2)

end Sorting

/-! ## Sample environments -/

/-- An environment whose first generated pair is `[5, 1]` and whose later
pairs are ascending; every timed call takes 7 ms. -/
def env_first_pair_unsorted : Env Int where
  rand := fun k => if k = 0 then 5 else k
  cast := fun x => x
  millis := fun _ => 7

/-- An environment of ascending random numbers in which the first timed call
takes `2^31` ms and the later ones take 0 ms. -/
def env_long_pass : Env Int where
  rand := fun k => k
  cast := fun x => x
  millis := fun k => if k = 0 then 2147483648 else 0

/-- An environment of descending random numbers in which the `k`-th timed call
takes `10 * k + 3` ms. -/
def env_steady : Env Int where
  rand := fun k => 1000 - k
  cast := fun x => x
  millis := fun k => 10 * k + 3

/-! ## Subtrees of the implicit binary tree -/

/-- Node `k` lies in the subtree rooted at node `i` of the implicit binary tree
in which the children of node `j` are `2 * j + 1` and `2 * j + 2`. -/
inductive in_subtree (i : Nat) : Nat → Prop
  | root : in_subtree i i
  | left {k : Nat} : in_subtree i k → in_subtree i (2 * k + 1)
  | right {k : Nat} : in_subtree i k → in_subtree i (2 * k + 2)

section Traced

variable {α : Type} [LinearOrder α]

/-- Max-heap property of the subtree rooted at `i`, restricted to indices below
`n`: every node of the subtree is at least each of its children below `n`. -/
def subtree_heap (v : List α) (n i : Nat) : Prop :=
  ∀ j c (_ : j < v.length) (_ : c < v.length), in_subtree i j →
    (c = 2 * j + 1 ∨ c = 2 * j + 2) → c < n → v[c] ≤ v[j]

/-! ## `heapify` with the accesses and the nested calls it makes -/

/-- Lines 25-32 of `heapify` once more, with the list of the indices at which
`v` is read, in the order of the reads. -/
def heapify_largest_traced (v : List α) (n i : Nat) : Except Fault (Nat × List Nat) :=
  let l := 2 * i + 1
  let r := 2 * i + 2
  let first : Except Fault (Nat × List Nat) :=
    if l < n then
      match read v l, read v i with
      | .ok a, .ok b => .ok (if b < a then l else i, [l, i])
      | _, _ => .error .undefined
    else .ok (i, [])
  match first with
  | .error e => .error e
  | .ok (largest, reads) =>
    if r < n then
      match read v r, read v largest with
      | .ok a, .ok b => .ok (if b < a then r else largest, reads ++ [r, largest])
      | _, _ => .error .undefined
    else .ok (largest, reads)

/-- The function `heapify` once more, returning with the vector the indices
at which the vector was read or written (the comparisons, then the two
operands of `std::swap`, then the accesses of the recursive call) and the
indices of the nested recursive calls, outermost first. -/
def heapify_traced (v : List α) (n i : Nat) : Except Fault (List α × List Nat × List Nat) :=
  match h : heapify_largest_traced v n i with
  | .error e => .error e
  | .ok (largest, reads) =>
    if largest ≠ i then
      match swap v i largest with
      | .error e => .error e
      | .ok w =>
        match heapify_traced w n largest with
        | .error e => .error e
        | .ok (u, accesses, calls) =>
          .ok (u, reads ++ [i, largest] ++ accesses, largest :: calls)
    else .ok (v, reads, [])
termination_by n - i
decreasing_by
  rename_i hne
  have hrange : largest = i ∨ (i < largest ∧ largest < n) := by
    unfold heapify_largest_traced at h
    simp only at h
    split at h
    · cases h
    · rename_i m rd hfirst
      have hm : m = i ∨ (i < m ∧ m < n) := by
        split at hfirst
        · split at hfirst
          · injection hfirst with hfirst
            injection hfirst with hfirst _
            split at hfirst
            · right; omega
            · left; omega
          · cases hfirst
        · injection hfirst with hfirst
          injection hfirst with hfirst _
          left; omega
      split at h
      · split at h
        · injection h with h
          injection h with h _
          split at h
          · right; omega
          · rw [← h]; exact hm
        · cases h
      · injection h with h
        injection h with h _
        rw [← h]; exact hm
  omega


end Traced

/-! ## Loops over lists of indices -/

/-- The values the counter takes in the bodies of
`for (int i = start; i >= 0; --i)`, in the order of the iterations. -/
def loop_indices (start : Int) : List Int :=
  if 0 ≤ start then start :: loop_indices (start - 1) else []
termination_by (start + 1).toNat
decreasing_by omega

/-- The call of `body` once for each element of a list, in order. -/
def for_each {β σ : Type} (body : β → σ → Except Fault σ) : List β → σ → Except Fault σ
  | [], s => .ok s
  | x :: xs, s =>
    match body x s with
    | .error e => .error e
    | .ok s' => for_each body xs s'

/-! ## `estimate` with the calls it makes -/

section TracedEstimate

variable {α : Type} [LinearOrder α]

end TracedEstimate

/-! ## `log_result`, `run_test` and `main` -/

/-- The three instantiations of the templates in `main`. -/
inductive ElemType where
  | int
  | float
  | double
  deriving DecidableEq, Repr

/-- The string `main` passes to `log_result` for an element type. -/
def ElemType.name : ElemType → String
  | .int => "int"
  | .float => "float"
  | .double => "double"

/-- The two strategies `run_test` hands to `estimate`. -/
inductive Strategy where
  | simple
  | std
  deriving DecidableEq, Repr

/-- What `main` does, in order: `header n` is the output of the header line for
size `n`; `estimated ty st n r` is a call `estimate<ty>(n, st)` that returned
`r`; `logged ty p` is the call of `log_result` with the pair `p` and the name
of `ty`. -/
inductive MainEvent where
  | header (size : Nat)
  | estimated (ty : ElemType) (st : Strategy) (size : Nat) (result : Int)
  | logged (ty : ElemType) (p : Int × Int)
  deriving DecidableEq, Repr

/-- The text `operator<<` writes for an `int` or a `size_t`: the decimal
numeral, with a leading minus sign for a negative value. -/
def decimal (x : Int) : String := toString x

/-- The function `log_result` (lines 96-100) on the text written so far: three
output statements, one line each. -/
def log_result (out : String) (p : Int × Int) (type : String) : String :=
  ((out ++ ("-- Type: " ++ type ++ "\n"))
      ++ ("---- Simple: " ++ decimal p.1 ++ "ms\n"))
    ++ ("---- Std: " ++ decimal p.2 ++ "ms\n")

/-- The header statement of `main` (line 104) on the text written so far. -/
def log_header (out : String) (size : Nat) : String :=
  out ++ ("Running tests with size " ++ decimal size ++ ":\n")

/-- The text an event of `main` adds to standard output. -/
def MainEvent.text : MainEvent → String
  | .header size => log_header "" size
  | .estimated _ _ _ _ => ""
  | .logged ty p => log_result "" p ty.name

/-- The text a list of events adds to standard output. -/
def trace_text : List MainEvent → String
  | [] => ""
  | e :: es => e.text ++ trace_text es

/-- State of a run of `main`: progress through the outside streams, the text
written to standard output, and the events so far. -/
structure MainState where
  world : World
  out : String
  trace : List MainEvent

/-- The outside of a run of `main`: the streams of `std::rand()` results and
of timings, and the conversions `static_cast<float>` and `static_cast<double>`
into the two floating-point types `F` and `D` (`static_cast<int>` of an `int`
is the identity). -/
structure Machine (F D : Type) where
  rand : Nat → Int
  millis : Nat → Int
  cast_float : Int → F
  cast_double : Int → D

/-- The environment of the instantiations at `int`. -/
def Machine.env_int {F D : Type} (M : Machine F D) : Env Int :=
  { rand := M.rand, cast := fun x => x, millis := M.millis }

/-- The environment of the instantiations at `float`. -/
def Machine.env_float {F D : Type} (M : Machine F D) : Env F :=
  { rand := M.rand, cast := M.cast_float, millis := M.millis }

/-- The environment of the instantiations at `double`. -/
def Machine.env_double {F D : Type} (M : Machine F D) : Env D :=
  { rand := M.rand, cast := M.cast_double, millis := M.millis }

/-- The sizes of the loop of `main` (line 103): the `double` literals
`5.0e5, 7.5e5, 1.0e6, 2.5e6, 5.0e6` are whole numbers and convert to these
`size_t` values. -/
def SIZES : List Nat := [500000, 750000, 1000000, 2500000, 5000000]

section Driver

variable {α : Type} [LinearOrder α]

/-- The strategy `&std_heapsort<T>` as `estimate` takes it. -/
def std_strategy (lib : HeapLibrary α) (v : List α) : Except Fault (List α) :=
  .ok (std_heapsort lib v)

/-- The function `run_test` (lines 89-94) at the element type tagged `ty`. -/
def run_test (env : Env α) (lib : HeapLibrary α) (ty : ElemType) (size : Nat)
    (s : MainState) : Except Fault ((Int × Int) × MainState) :=
  match estimate env s.world size simple_heapsort with
  | .error e => .error e
  | .ok (elapsed_simple, w1) =>
    match estimate env w1 size (std_strategy lib) with
    | .error e => .error e
    | .ok (elapsed_std, w2) =>
      .ok ((elapsed_simple, elapsed_std),
        { world := w2, out := s.out,
          trace := s.trace ++ [.estimated ty .simple size elapsed_simple,
            .estimated ty .std size elapsed_std] })

/-- A pair of statements of the body of `main`, such as lines 105-106:
`auto t = run_test<T>(size); log_result(t, name);`. -/
def test_and_log (env : Env α) (lib : HeapLibrary α) (ty : ElemType) (size : Nat)
    (s : MainState) : Except Fault MainState :=
  match run_test env lib ty size s with
  | .error e => .error e
  | .ok (p, s1) =>
    .ok { world := s1.world, out := log_result s1.out p ty.name,
          trace := s1.trace ++ [.logged ty p] }

/-- The contract of the library at the three element types. -/
structure Libraries (F D : Type) [LinearOrder F] [LinearOrder D] where
  lib_int : HeapLibrary Int
  lib_float : HeapLibrary F
  lib_double : HeapLibrary D

end Driver

section DriverMain

variable {F D : Type} [LinearOrder F] [LinearOrder D]

/-- Body of the loop of `main` (lines 104-110). -/
def main_body (M : Machine F D) (L : Libraries F D) (size : Nat) (s : MainState) :
    Except Fault MainState :=
  match test_and_log M.env_int L.lib_int .int size
      { world := s.world, out := log_header s.out size,
        trace := s.trace ++ [.header size] } with
  | .error e => .error e
  | .ok s1 =>
    match test_and_log M.env_float L.lib_float .float size s1 with
    | .error e => .error e
    | .ok s2 => test_and_log M.env_double L.lib_double .double size s2

/-- The function `main` (lines 102-112), started with nothing written. -/
def main (M : Machine F D) (L : Libraries F D) (w : World) : Except Fault MainState :=
  for_each (main_body M L) SIZES { world := w, out := "", trace := [] }

end DriverMain

/-- The events of one iteration of the loop of `main` at size `n`, when the
three calls of `run_test` return the pairs `q.1`, `q.2.1` and `q.2.2`. -/
def size_block (n : Nat) (q : (Int × Int) × (Int × Int) × (Int × Int)) : List MainEvent :=
  [.header n,
   .estimated .int .simple n q.1.1, .estimated .int .std n q.1.2, .logged .int q.1,
   .estimated .float .simple n q.2.1.1, .estimated .float .std n q.2.1.2, .logged .float q.2.1,
   .estimated .double .simple n q.2.2.1, .estimated .double .std n q.2.2.2,
   .logged .double q.2.2]

section DriverCalls

variable {F D : Type} [LinearOrder F] [LinearOrder D]

/-- The two calls of `estimate` made by one `run_test<T>(size)`: started in the
outside state `w`, `estimate` with `simple_heapsort` returns `p.1` and leaves
the state `w1`; started in `w1`, `estimate` with `std_heapsort` returns `p.2`
and leaves the state `w'`. -/
def estimated_pair {α : Type} [LinearOrder α] (env : Env α) (lib : HeapLibrary α)
    (size : Nat) (w : World) (p : Int × Int) (w' : World) : Prop :=
  ∃ w1, estimate env w size simple_heapsort = .ok (p.1, w1) ∧
    estimate env w1 size (std_strategy lib) = .ok (p.2, w')

/-- The six calls of `estimate` of one iteration of the loop of `main` at size
`n`, from the outside state `w` to the outside state `w'`: the pair at `int`,
then the pair at `float`, then the pair at `double`, each started where the
one before ended, with the results `q.1`, `q.2.1` and `q.2.2`. -/
def estimated_size (M : Machine F D) (L : Libraries F D) (n : Nat) (w : World)
    (q : (Int × Int) × (Int × Int) × (Int × Int)) (w' : World) : Prop :=
  ∃ w1 w2, estimated_pair M.env_int L.lib_int n w q.1 w1 ∧
    estimated_pair M.env_float L.lib_float n w1 q.2.1 w2 ∧
    estimated_pair M.env_double L.lib_double n w2 q.2.2 w'

/-- The calls of `estimate` of a loop over a list of sizes, from the outside
state `w` to the outside state `w'`: for each size in order the six calls of
`estimated_size`, each size started where the one before ended. -/
def estimated_sizes (M : Machine F D) (L : Libraries F D) :
    List Nat → List ((Int × Int) × (Int × Int) × (Int × Int)) → World → World → Prop
  | [], [], w, w' => w' = w
  | n :: ns, q :: qs, w, w' =>
    ∃ w1, estimated_size M L n w q w1 ∧ estimated_sizes M L ns qs w1 w'
  | _, _, _, _ => False

end DriverCalls

/-- A library that meets the contract: sorting in descending order builds a
max-heap and sorting in ascending order sorts one. -/
def reference_library {α : Type} [LinearOrder α] : HeapLibrary α where
  make_heap := fun v => v.insertionSort (· ≥ ·)
  sort_heap := fun v => v.insertionSort (· ≤ ·)
  make_heap_perm := fun v => List.perm_insertionSort _ v
  make_heap_heap := by
    intro v k hk hpos _
    dsimp only at hk ⊢
    have hs : List.Sorted (· ≥ ·) (v.insertionSort (· ≥ ·)) := List.sorted_insertionSort _ v
    rw [List.Sorted, List.pairwise_iff_getElem] at hs
    exact hs ((k - 1) / 2) k (by omega) hk (by omega)
  sort_heap_perm := fun v _ => List.perm_insertionSort _ v
  sort_heap_sorted := by
    intro v _ k hk hpos
    dsimp only at hk ⊢
    have hs : List.Sorted (· ≤ ·) (v.insertionSort (· ≤ ·)) := List.sorted_insertionSort _ v
    rw [List.Sorted, List.pairwise_iff_getElem] at hs
    exact hs (k - 1) k (by omega) hk (by omega)

/-- A machine with ascending random numbers, 7 ms for every timed call, and
the integers standing for both floating-point types. -/
def sample_machine : Machine Int Int where
  rand := fun k => k
  millis := fun _ => 7
  cast_float := fun x => x
  cast_double := fun x => x

/-- The reference library at the three element types of `sample_machine`. -/
def sample_libraries : Libraries Int Int where
  lib_int := reference_library
  lib_float := reference_library
  lib_double := reference_library

/-! ## Basic facts: reads, swaps, loops -/

theorem read_of_lt {α : Type} {v : List α} {i : Nat} (h : i < v.length) :
    read v i = .ok v[i] := by
  simp [read, List.getElem?_eq_getElem h]

theorem swap_of_lt {α : Type} {v : List α} {i j : Nat} (hi : i < v.length)
    (hj : j < v.length) : swap v i j = .ok ((v.set i v[j]).set j v[i]) := by
  simp [swap, List.getElem?_eq_getElem hi, List.getElem?_eq_getElem hj]

theorem cons_set_perm {α : Type} (a : α) :
    ∀ (t : List α) (k : Nat) (hk : k < t.length), (t[k] :: t.set k a).Perm (a :: t) := by
  intro t
  induction t with
  | nil => intro k hk; simp at hk
  | cons b t ih =>
    intro k hk
    cases k with
    | zero => simpa using List.Perm.swap a b t
    | succ k =>
      have hk2 : k < t.length := by simpa using hk
      have h1 : (t[k] :: b :: t.set k a).Perm (b :: t[k] :: t.set k a) := List.Perm.swap _ _ _
      have h2 : (b :: t[k] :: t.set k a).Perm (b :: a :: t) := (ih k hk2).cons b
      have h3 : (b :: a :: t).Perm (a :: b :: t) := List.Perm.swap _ _ _
      simpa using (h1.trans h2).trans h3

theorem set_set_perm_lt {α : Type} :
    ∀ (v : List α) (i j : Nat) (hij : i < j) (hj : j < v.length),
      ((v.set i v[j]).set j v[i]).Perm v := by
  intro v
  induction v with
  | nil => intro i j _ hj; simp at hj
  | cons a t ih =>
    intro i j hij hj
    cases j with
    | zero => omega
    | succ j =>
      have hj2 : j < t.length := by simpa using hj
      cases i with
      | zero => simpa using cons_set_perm a t j hj2
      | succ i => simpa using (ih i j (by omega) hj2).cons a

theorem set_getElem_same {α : Type} (v : List α) (i : Nat) (hi : i < v.length) :
    v.set i v[i] = v := by
  apply List.ext_getElem (by simp)
  intro k h1 h2
  rw [List.getElem_set]
  split
  · rename_i h; subst h; rfl
  · rfl

theorem set_set_perm {α : Type} (v : List α) (i j : Nat) (hi : i < v.length)
    (hj : j < v.length) : ((v.set i v[j]).set j v[i]).Perm v := by
  rcases Nat.lt_trichotomy i j with h | h | h
  · exact set_set_perm_lt v i j h hj
  · subst h
    rw [set_getElem_same v i hi, set_getElem_same v i hi]
  · have := set_set_perm_lt v j i h hi
    rwa [List.set_comm _ _ _ (by omega)] at this

theorem swap_ok {α : Type} {v : List α} {i j : Nat} (hi : i < v.length) (hj : j < v.length) :
    ∃ w, swap v i j = .ok w ∧ w.Perm v ∧ w.length = v.length ∧
      (∀ k, k ≠ i → k ≠ j → w[k]? = v[k]?) ∧ w[i]? = some v[j] ∧ w[j]? = some v[i] := by
  refine ⟨_, swap_of_lt hi hj, set_set_perm v i j hi hj, by simp, ?_, ?_, ?_⟩
  · intro k hki hkj
    simp [List.getElem?_set, Ne.symm hki, Ne.symm hkj]
  · by_cases h : j = i
    · subst h; simp [List.getElem?_set, hi]
    · simp [List.getElem?_set, h, hi]
  · simp [List.getElem?_set, hj]


/-! ## `heapify`: unfolding, choice of the index, totality and frame -/

section SortingFacts

variable {α : Type} [LinearOrder α]

theorem heapify_unfold (v : List α) (n i : Nat) :
    heapify v n i =
      match heapify_largest v n i with
      | .error e => .error e
      | .ok largest =>
        if largest ≠ i then
          match swap v i largest with
          | .error e => .error e
          | .ok w => heapify w n largest
        else .ok v := by
  rw [heapify]
  split <;> simp_all

theorem heapify_largest_of_ge (v : List α) {n i : Nat} (h : n ≤ i) :
    heapify_largest v n i = .ok i := by
  have h1 : ¬ 2 * i + 1 < n := by omega
  have h2 : ¬ 2 * i + 2 < n := by omega
  simp [heapify_largest, h1, h2]

theorem heapify_largest_spec {v : List α} {n i : Nat} (hn : n ≤ v.length) (hi : i < n) :
    ∃ m, ∃ hm : m < v.length, heapify_largest v n i = .ok m ∧ m < n ∧
      (m = i ∨ m = 2 * i + 1 ∨ m = 2 * i + 2) ∧
      (m ≠ i → v[i] < v[m]) ∧
      (∀ c (hc : c < v.length), c < n → (c = 2 * i + 1 ∨ c = 2 * i + 2) → v[c] ≤ v[m]) := by
  have hiv : i < v.length := by omega
  unfold heapify_largest
  simp only
  by_cases hl : 2 * i + 1 < n
  · have hlv : 2 * i + 1 < v.length := by omega
    by_cases hr : 2 * i + 2 < n
    · have hrv : 2 * i + 2 < v.length := by omega
      simp only [hl, hr, if_true, read_of_lt hlv, read_of_lt hiv, read_of_lt hrv]
      by_cases h1 : v[i] < v[2 * i + 1]
      · simp only [h1, if_true, read_of_lt hlv]
        by_cases h2 : v[2 * i + 1] < v[2 * i + 2]
        · simp only [h2, if_true]
          refine ⟨2 * i + 2, hrv, rfl, hr, by omega, fun _ => lt_trans h1 h2, ?_⟩
          rintro c hc - (rfl | rfl)
          · exact le_of_lt h2
          · exact le_refl _
        · simp only [h2, if_false]
          refine ⟨2 * i + 1, hlv, rfl, hl, by omega, fun _ => h1, ?_⟩
          rintro c hc - (rfl | rfl)
          · exact le_refl _
          · exact not_lt.mp h2
      · simp only [h1, if_false, read_of_lt hiv]
        by_cases h2 : v[i] < v[2 * i + 2]
        · simp only [h2, if_true]
          refine ⟨2 * i + 2, hrv, rfl, hr, by omega, fun _ => h2, ?_⟩
          rintro c hc - (rfl | rfl)
          · exact le_trans (not_lt.mp h1) (le_of_lt h2)
          · exact le_refl _
        · simp only [h2, if_false]
          refine ⟨i, hiv, rfl, hi, by omega, fun h => absurd rfl h, ?_⟩
          rintro c hc - (rfl | rfl)
          · exact not_lt.mp h1
          · exact not_lt.mp h2
    · simp only [hl, hr, if_true, if_false, read_of_lt hlv, read_of_lt hiv]
      by_cases h1 : v[i] < v[2 * i + 1]
      · simp only [h1, if_true]
        refine ⟨2 * i + 1, hlv, rfl, hl, by omega, fun _ => h1, ?_⟩
        rintro c hc hcn (rfl | rfl)
        · exact le_refl _
        · exact absurd hcn hr
      · simp only [h1, if_false]
        refine ⟨i, hiv, rfl, hi, by omega, fun h => absurd rfl h, ?_⟩
        rintro c hc hcn (rfl | rfl)
        · exact not_lt.mp h1
        · exact absurd hcn hr
  · have hr : ¬ 2 * i + 2 < n := by omega
    simp only [hl, hr, if_false]
    refine ⟨i, hiv, rfl, hi, by omega, fun h => absurd rfl h, ?_⟩
    rintro c hc hcn (rfl | rfl)
    · exact absurd hcn hl
    · exact absurd hcn hr

/-- Inside the vector `heapify` returns normally with a permutation of its
input that differs from it only at indices in `[i, n)`. -/
theorem heapify_ok (n : Nat) :
    ∀ (d : Nat) (v : List α) (i : Nat), n - i = d → n ≤ v.length →
      ∃ w, heapify v n i = .ok w ∧ w.Perm v ∧ w.length = v.length ∧
        ∀ k, (k < i ∨ n ≤ k) → w[k]? = v[k]? := by
  intro d
  induction d using Nat.strong_induction_on with
  | _ d ih =>
    intro v i hd hn
    rw [heapify_unfold]
    by_cases hi : i < n
    · obtain ⟨m, hm, hsel, hmn, hcases, -, -⟩ := heapify_largest_spec hn hi
      rw [hsel]
      by_cases hmi : m = i
      · subst hmi
        simp
      · have hiv : i < v.length := by omega
        obtain ⟨w, hsw, hperm, hlen, hframe, -, -⟩ := swap_ok hiv hm
        simp only [ne_eq, hmi, not_false_eq_true, if_true, hsw]
        obtain ⟨u, hu, huperm, hulen, huframe⟩ :=
          ih (n - m) (by omega) w m rfl (by omega)
        refine ⟨u, hu, huperm.trans hperm, by omega, ?_⟩
        intro k hk
        rw [huframe k (by omega), hframe k (by omega) (by omega)]
    · rw [heapify_largest_of_ge v (by omega)]
      simp

/-! ## Loop arithmetic and the two loops of `simple_heapsort` -/

theorem to_int_eq_narrow (x : Nat) : to_int x = narrow (x : Int) := by
  unfold to_int narrow INT_MOD
  norm_num
  split
  · rename_i h
    have h2 : (x : Int) % 4294967296 < 2147483648 := by omega
    rw [if_pos h2]
  · rename_i h
    have h2 : ¬ (x : Int) % 4294967296 < 2147483648 := by omega
    rw [if_neg h2, Int.negSucc_eq]; omega

theorem to_int_val (x : Nat) :
    to_int x = if x % 4294967296 < 2147483648 then ((x % 4294967296 : Nat) : Int)
      else ((x % 4294967296 : Nat) : Int) - 4294967296 := by
  unfold to_int INT_MOD
  norm_num
  split
  · rfl
  · rw [Int.negSucc_eq]; omega

theorem size_sub_val (a b : Nat) :
    size_sub a b = if b % 18446744073709551616 ≤ a % 18446744073709551616
      then a % 18446744073709551616 - b % 18446744073709551616
      else 18446744073709551616 - (b % 18446744073709551616 - a % 18446744073709551616) := by
  unfold size_sub SIZE_MOD
  norm_num

theorem build_count_le (n : Nat) : (build_start n + 1).toNat ≤ n / 2 := by
  rw [build_start, to_int_val, size_sub_val]
  split <;> split <;> omega

theorem extract_count_le (n : Nat) : (extract_start n + 1).toNat ≤ n := by
  rw [extract_start, to_int_val, size_sub_val]
  split <;> split <;> omega

theorem build_count_of_le {n : Nat} (h : n ≤ 2 ^ 32) : (build_start n + 1).toNat = n / 2 := by
  norm_num at h
  rw [build_start, to_int_val, size_sub_val]
  split <;> split <;> omega

theorem extract_count_of_le {n : Nat} (h : n ≤ 2 ^ 31) : (extract_start n + 1).toNat = n := by
  norm_num at h
  rw [extract_start, to_int_val, size_sub_val]
  split <;> split <;> omega

/-- Invariant rule for the count-down loop. -/
theorem count_down_inv {σ : Type} (body : Nat → σ → Except Fault σ) (P : Nat → σ → Prop) :
    ∀ (k : Nat) (s : σ), P k s →
      (∀ j t, j < k → P (j + 1) t → ∃ t', body j t = .ok t' ∧ P j t') →
      ∃ t, count_down body k s = .ok t ∧ P 0 t := by
  intro k
  induction k with
  | zero => intro s h0 _; exact ⟨s, rfl, h0⟩
  | succ k ih =>
    intro s h0 hstep
    obtain ⟨t, ht, hPt⟩ := hstep k s (by omega) h0
    obtain ⟨u, hu, hPu⟩ := ih t hPt (fun j t hj hP => hstep j t (by omega) hP)
    exact ⟨u, by simp [count_down, ht, hu], hPu⟩

theorem extract_step_ok {v : List α} {i : Nat} (hi : i < v.length) :
    ∃ w, extract_step i v = .ok w ∧ w.Perm v ∧ w.length = v.length ∧
      ∀ k, i < k → w[k]? = v[k]? := by
  obtain ⟨u, hu, hperm, hlen, hframe, -, -⟩ := swap_ok (show 0 < v.length by omega) hi
  obtain ⟨w, hw, hwperm, hwlen, hwframe⟩ := heapify_ok i (i - 0) u 0 rfl (by omega)
  refine ⟨w, by simp [extract_step, hu, hw], hwperm.trans hperm, by omega, ?_⟩
  intro k hk
  rw [hwframe k (by omega), hframe k (by omega) (by omega)]

theorem build_heap_ok (v : List α) : ∃ w, build_heap v = .ok w ∧ w.Perm v := by
  unfold build_heap
  apply count_down_inv _ (fun _ w => w.Perm v) _ v (List.Perm.refl v)
  intro j t _ hP
  obtain ⟨w, hw, hperm, -, -⟩ := heapify_ok v.length (v.length - j) t j rfl (by rw [hP.length_eq])
  exact ⟨w, hw, hperm.trans hP⟩

theorem extract_loop_ok (n : Nat) (v : List α) (hn : n ≤ v.length) :
    ∃ w, count_down extract_step n v = .ok w ∧ w.Perm v := by
  apply count_down_inv _ (fun _ w => w.Perm v) _ v (List.Perm.refl v)
  intro j t hj hP
  obtain ⟨w, hw, hperm, -, -⟩ := @extract_step_ok _ _ t j (by rw [hP.length_eq]; omega)
  exact ⟨w, hw, hperm.trans hP⟩

theorem simple_heapsort_of_build {v u : List α} (hu : build_heap v = .ok u) :
    simple_heapsort v = count_down extract_step (extract_start v.length + 1).toNat u := by
  rw [simple_heapsort, hu]

theorem simple_heapsort_ok (v : List α) : ∃ w, simple_heapsort v = .ok w ∧ w.Perm v := by
  obtain ⟨u, hu, hperm⟩ := build_heap_ok v
  obtain ⟨w, hw, hwperm⟩ := extract_loop_ok (extract_start v.length + 1).toNat u
    (by rw [hperm.length_eq]; exact extract_count_le _)
  exact ⟨w, by rw [simple_heapsort_of_build hu, hw], hwperm.trans hperm⟩

/-! ## `verify` -/

theorem verify_from_spec (v : List α) :
    ∀ (d i : Nat), v.length - i = d → 1 ≤ i →
      (verify_from v i = .error (.thrown "Verification failed") ∧
          ∃ j, ∃ _ : j < v.length, i ≤ j ∧ v[j] < v[j - 1]) ∨
        (verify_from v i = .ok () ∧
          ∀ j (_ : j < v.length), i ≤ j → ¬ v[j] < v[j - 1]) := by
  intro d
  induction d with
  | zero =>
    intro i hd hi
    right
    have hlt : ¬ i < v.length := by omega
    refine ⟨by rw [verify_from]; simp [hlt], ?_⟩
    intro j hj hij
    omega
  | succ d ih =>
    intro i hd hi
    have hlt : i < v.length := by omega
    have hpred : i - 1 < v.length := by omega
    rw [verify_from]
    simp only [hlt, dif_pos, read_of_lt hlt, read_of_lt hpred]
    by_cases hinv : v[i] < v[i - 1]
    · left
      exact ⟨by simp [hinv], i, hlt, le_refl i, hinv⟩
    · simp only [hinv, if_false]
      rcases ih (i + 1) (by omega) (by omega) with ⟨h1, j, hj, hij, hjinv⟩ | ⟨h1, h2⟩
      · left
        exact ⟨h1, j, hj, by omega, hjinv⟩
      · right
        refine ⟨h1, ?_⟩
        intro j hj hij
        by_cases hji : j = i
        · subst hji; exact hinv
        · exact h2 j hj (by omega)

theorem verify_cases (v : List α) :
    (verify v = .error (.thrown "Verification failed") ∧ has_inversion v) ∨
      (verify v = .ok () ∧ ¬ has_inversion v) := by
  rcases verify_from_spec v (v.length - 1) 1 rfl (le_refl 1) with ⟨h1, j, hj, hij, hinv⟩ | ⟨h1, h2⟩
  · left
    exact ⟨h1, j, hj, by omega, hinv⟩
  · right
    refine ⟨h1, ?_⟩
    rintro ⟨j, hj, hpos, hinv⟩
    exact h2 j hj (by omega) hinv

theorem verify_ok_iff (v : List α) : verify v = .ok () ↔ ¬ has_inversion v := by
  rcases verify_cases v with ⟨h1, h2⟩ | ⟨h1, h2⟩
  · simp [h1, h2]
  · simp [h1, h2]

theorem verify_error_iff (v : List α) :
    verify v = .error (.thrown "Verification failed") ↔ has_inversion v := by
  rcases verify_cases v with ⟨h1, h2⟩ | ⟨h1, h2⟩
  · simp [h1, h2]
  · simp [h1, h2]

theorem not_has_inversion_iff (v : List α) : ¬ has_inversion v ↔ nondescending v := by
  constructor
  · intro h k hk hpos
    by_contra hlt
    exact h ⟨k, hk, hpos, not_le.mp hlt⟩
  · rintro h ⟨k, hk, hpos, hlt⟩
    exact absurd (h k hk hpos) (not_le.mpr hlt)

/-! ## `heapify` restores the heap order -/

theorem swap_getElem {β : Type} {v u : List β} {i j : Nat} (hi : i < v.length) (hj : j < v.length)
    (h : swap v i j = .ok u) :
    ∀ k (hk : k < v.length) (hk2 : k < u.length),
      u[k] = if k = j then v[i] else if k = i then v[j] else v[k] := by
  rw [swap_of_lt hi hj] at h
  injection h with h
  subst h
  intro k hk hk2
  rw [List.getElem_set]
  by_cases h1 : j = k
  · subst h1; simp
  · rw [if_neg h1, List.getElem_set, if_neg (Ne.symm h1)]
    by_cases h2 : i = k
    · subst h2; simp
    · rw [if_neg h2, if_neg (Ne.symm h2)]

/-- Sift-down lemma.  `S` is a set of nodes closed under taking children.  If
every node of `S` other than `i` dominates its children below `n`, and the
parent of `i`, when it is in `S`, dominates the children of `i`, then after
`heapify(v, n, i)` every node of `S` dominates its children below `n`. -/
theorem heapify_restores (S : Nat → Prop) (hS : ∀ j, S j → S (2 * j + 1) ∧ S (2 * j + 2))
    (n : Nat) :
    ∀ (d : Nat) (v w : List α) (i : Nat), n - i = d → n ≤ v.length → i < n → S i →
      heapify v n i = .ok w →
      (∀ k p (hk : k < v.length) (hp : p < v.length), 0 < k → k < n → p = (k - 1) / 2 →
        S p → p ≠ i → v[k] ≤ v[p]) →
      (∀ k q (hk : k < v.length) (hq : q < v.length), 0 < k → k < n → (k - 1) / 2 = i →
        0 < i → q = (i - 1) / 2 → S q → v[k] ≤ v[q]) →
      ∀ k p (hk : k < w.length) (hp : p < w.length), 0 < k → k < n → p = (k - 1) / 2 →
        S p → w[k] ≤ w[p] := by
  intro d
  induction d using Nat.strong_induction_on with
  | _ d ih =>
    intro v w i hd hn hi hSi hw ha hb
    rw [heapify_unfold] at hw
    obtain ⟨m, hm, hsel, hmn, hcases, hgt, hmax⟩ := heapify_largest_spec hn hi
    have hiv : i < v.length := by omega
    rw [hsel] at hw
    by_cases hmi : m = i
    · subst hmi
      simp only [ne_eq, not_true_eq_false, if_false] at hw
      injection hw with hw
      subst hw
      intro k p hk hp hpos hkn hpk hSp
      by_cases hpi : p = m
      · subst hpi
        exact hmax k hk hkn (by omega)
      · exact ha k p hk hp hpos hkn hpk hSp hpi
    · simp only [ne_eq, hmi, not_false_eq_true, if_true] at hw
      obtain ⟨u, hu, -, hulen, -, -, -⟩ := swap_ok hiv hm
      have hget := swap_getElem hiv hm hu
      rw [hu] at hw
      have hSm : S m := by
        rcases hcases with h | h | h
        · exact absurd h hmi
        · rw [h]; exact (hS i hSi).1
        · rw [h]; exact (hS i hSi).2
      have him : i < m := by omega
      have hpm : (m - 1) / 2 = i := by omega
      refine ih (n - m) (by omega) u w m rfl (by omega) hmn hSm hw ?_ ?_
      · intro k p hk hp hpos hkn hpk hSp hpne
        have hk2 : k < v.length := by omega
        have hp2 : p < v.length := by omega
        rw [hget k hk2 hk, hget p hp2 hp, if_neg hpne]
        by_cases hpi : p = i
        · rw [if_pos hpi]
          by_cases hkm : k = m
          · rw [if_pos hkm]
            exact le_of_lt (hgt hmi)
          · rw [if_neg hkm, if_neg (by omega)]
            exact hmax k hk2 hkn (by omega)
        · rw [if_neg hpi, if_neg (by omega)]
          by_cases hki : k = i
          · rw [if_pos hki]
            exact hb m p hm hp2 (by omega) hmn hpm (by omega) (by omega) hSp
          · rw [if_neg hki]
            exact ha k p hk2 hp2 hpos hkn hpk hSp hpi
      · intro k q hk hq hpos hkn hkm hmpos hqm hSq
        have hk2 : k < v.length := by omega
        have hq2 : q < v.length := by omega
        have hqi : q = i := by omega
        rw [hget k hk2 hk, hget q hq2 hq, if_neg (by omega), if_neg (by omega),
          if_neg (by omega), if_pos hqi]
        exact ha k m hk2 hm hpos hkn (by omega) hSm hmi

/-- When the node dominates its children below `n`, `heapify` changes
nothing. -/
theorem heapify_of_dominates {v : List α} {n i : Nat} (hn : n ≤ v.length)
    (h : ∀ c (hc : c < v.length) (hi : i < v.length), c < n →
      (c = 2 * i + 1 ∨ c = 2 * i + 2) → v[c] ≤ v[i]) :
    heapify v n i = .ok v := by
  rw [heapify_unfold]
  by_cases hi : i < n
  · obtain ⟨m, hm, hsel, hmn, hcases, hgt, -⟩ := heapify_largest_spec hn hi
    have hmi : m = i := by
      by_contra hne
      have h1 := hgt hne
      have h2 := h m hm (by omega) hmn (by omega)
      exact absurd h1 (not_lt.mpr h2)
    rw [hsel]
    simp [hmi]
  · rw [heapify_largest_of_ge v (by omega)]
    simp

/-- An upper bound of `v[0..n)` is still one after `heapify`. -/
theorem heapify_bound (n : Nat) (x : α) :
    ∀ (d : Nat) (v w : List α) (i : Nat), n - i = d → n ≤ v.length →
      heapify v n i = .ok w →
      (∀ k (hk : k < v.length), k < n → v[k] ≤ x) →
      ∀ k (hk : k < w.length), k < n → w[k] ≤ x := by
  intro d
  induction d using Nat.strong_induction_on with
  | _ d ih =>
    intro v w i hd hn hw hx
    rw [heapify_unfold] at hw
    by_cases hi : i < n
    · obtain ⟨m, hm, hsel, hmn, hcases, -, -⟩ := heapify_largest_spec hn hi
      have hiv : i < v.length := by omega
      rw [hsel] at hw
      by_cases hmi : m = i
      · subst hmi
        simp only [ne_eq, not_true_eq_false, if_false] at hw
        injection hw with hw
        subst hw
        exact hx
      · simp only [ne_eq, hmi, not_false_eq_true, if_true] at hw
        obtain ⟨u, hu, -, hulen, -, -, -⟩ := swap_ok hiv hm
        have hget := swap_getElem hiv hm hu
        rw [hu] at hw
        refine ih (n - m) (by omega) u w m rfl (by omega) hw ?_
        intro k hk hkn
        rw [hget k (by omega) hk]
        split
        · exact hx i hiv hi
        · split
          · exact hx m hm hmn
          · exact hx k (by omega) hkn
    · rw [heapify_largest_of_ge v (by omega)] at hw
      simp only [ne_eq, not_true_eq_false, if_false] at hw
      injection hw with hw
      subst hw
      exact hx

/-- The root of a max-heap is a maximum of the heap. -/
theorem heap_root_max {v : List α} {n : Nat} (h : is_max_heap v n) :
    ∀ k (hk : k < v.length) (h0 : 0 < v.length), k < n → v[k] ≤ v[0] := by
  intro k
  induction k using Nat.strong_induction_on with
  | _ k ih =>
    intro hk h0 hkn
    by_cases hpos : 0 < k
    · have h1 := h k hk hpos hkn
      have h2 := ih ((k - 1) / 2) (by omega) (by omega) h0 (by omega)
      exact le_trans h1 h2
    · have : k = 0 := by omega
      subst this
      exact le_refl _

/-- Non-descending order compares any two positions. -/
theorem nondescending_le {v : List α} (h : nondescending v) :
    ∀ (j i : Nat) (hj : j < v.length) (hi : i < v.length), i ≤ j → v[i] ≤ v[j] := by
  intro j
  induction j with
  | zero =>
    intro i hj hi hij
    have : i = 0 := by omega
    subst this
    exact le_refl _
  | succ j ih =>
    intro i hj hi hij
    by_cases h1 : i = j + 1
    · subst h1; exact le_refl _
    · have h2 := ih i (by omega) hi (by omega)
      have h3 := h (j + 1) hj (by omega)
      simp only [Nat.add_sub_cancel] at h3
      exact le_trans h2 h3

theorem nondescending_sorted {v : List α} (h : nondescending v) : List.Sorted (· ≤ ·) v := by
  rw [List.Sorted, List.pairwise_iff_getElem]
  intro i j hi hj hij
  exact nondescending_le h j i hj hi (le_of_lt hij)

/-- Two non-descending arrangements of the same values are equal. -/
theorem nondescending_unique {v w : List α} (hp : v.Perm w) (hv : nondescending v)
    (hw : nondescending w) : v = w :=
  List.eq_of_perm_of_sorted hp (nondescending_sorted hv) (nondescending_sorted hw)

/-! ## The build phase and the extraction phase -/

theorem getElem_of_getElem?_eq {β : Type} {v w : List β} {k : Nat} (h : w[k]? = v[k]?)
    (hw : k < w.length) (hv : k < v.length) : w[k] = v[k] := by
  rw [List.getElem?_eq_getElem hw, List.getElem?_eq_getElem hv] at h
  exact Option.some.inj h

/-- The build loop started at `c >= n / 2` leaves a max-heap. -/
theorem build_loop_heap (v : List α) (c : Nat) (hc : v.length / 2 ≤ c) :
    ∃ w, count_down (fun i w => heapify w v.length i) c v = .ok w ∧ w.Perm v ∧
      is_max_heap w v.length := by
  obtain ⟨w, hw, hperm, hheap⟩ := count_down_inv (fun i w => heapify w v.length i)
    (fun j w => w.Perm v ∧
      ∀ k p (hk : k < w.length) (hp : p < w.length), 0 < k → k < v.length →
        p = (k - 1) / 2 → j ≤ p → w[k] ≤ w[p])
    c v ⟨List.Perm.refl v, by intro k p hk hp hpos hkn hpk hjp; omega⟩
    (by
      intro j t _ hP
      obtain ⟨hperm, hheap⟩ := hP
      have hlen : t.length = v.length := hperm.length_eq
      obtain ⟨w, hw, hwperm, hwlen, -⟩ := heapify_ok v.length (v.length - j) t j rfl (by omega)
      refine ⟨w, hw, hwperm.trans hperm, ?_⟩
      by_cases hj : j < v.length
      · exact heapify_restores (fun p => j ≤ p) (by intro p hp; constructor <;> omega)
          v.length (v.length - j) t w j rfl (by omega) hj (le_refl j) hw
          (by
            intro k p hk hp hpos hkn hpk hjp hne
            exact hheap k p hk hp hpos hkn hpk (by omega))
          (by
            intro k q hk hq hpos hkn hkj hjpos hqj hjq
            omega)
      · intro k p hk hp hpos hkn hpk hjp
        omega)
  refine ⟨w, hw, hperm, ?_⟩
  intro k hk hpos hkn
  exact hheap k ((k - 1) / 2) hk (by omega) hpos hkn rfl (Nat.zero_le _)

theorem build_heap_heap (v : List α) (h : v.length ≤ 2 ^ 32) :
    ∃ w, build_heap v = .ok w ∧ w.Perm v ∧ is_max_heap w v.length := by
  unfold build_heap
  rw [build_count_of_le h]
  exact build_loop_heap v (v.length / 2) (le_refl _)

/-- One extraction step keeps the loop invariant: heap prefix, sorted suffix,
prefix below suffix. -/
theorem extract_step_inv {t : List α} {j : Nat} (hj : j < t.length)
    (hheap : is_max_heap t (j + 1))
    (hsuf : ∀ a b (ha : a < t.length) (hb : b < t.length), j + 1 ≤ a → a ≤ b → t[a] ≤ t[b])
    (hps : ∀ a b (ha : a < t.length) (hb : b < t.length), a < j + 1 → j + 1 ≤ b → t[a] ≤ t[b]) :
    ∃ w, extract_step j t = .ok w ∧ w.Perm t ∧ is_max_heap w j ∧
      (∀ a b (ha : a < w.length) (hb : b < w.length), j ≤ a → a ≤ b → w[a] ≤ w[b]) ∧
      (∀ a b (ha : a < w.length) (hb : b < w.length), a < j → j ≤ b → w[a] ≤ w[b]) := by
  have h0 : 0 < t.length := by omega
  obtain ⟨u, hu, huperm, hulen, -, -, -⟩ := swap_ok h0 hj
  have hget := swap_getElem h0 hj hu
  obtain ⟨w, hw, hwperm, hwlen, hframe⟩ := heapify_ok j (j - 0) u 0 rfl (by omega)
  have hroot : ∀ k (hk : k < t.length), k < j + 1 → t[k] ≤ t[0] :=
    fun k hk hkj => heap_root_max hheap k hk h0 hkj
  have hsame : ∀ b (hb : b < w.length) (hb2 : b < u.length), j ≤ b → w[b] = u[b] :=
    fun b hb hb2 hjb => getElem_of_getElem?_eq (hframe b (Or.inr hjb)) hb hb2
  have hstep : extract_step j t = .ok w := by simp [extract_step, hu, hw]
  refine ⟨w, hstep, hwperm.trans huperm, ?_, ?_, ?_⟩
  · intro k hk hpos hkj
    refine heapify_restores (fun _ => True) (fun _ _ => ⟨trivial, trivial⟩) j (j - 0) u w 0 rfl
      (by omega) (by omega) trivial hw ?_ ?_ k ((k - 1) / 2) hk (by omega) hpos hkj rfl trivial
    · intro k p hk hp hpos hkj hpk _ hp0
      rw [hget k (by omega) hk, hget p (by omega) hp, if_neg (by omega), if_neg (by omega),
        if_neg (by omega), if_neg (by omega)]
      have := hheap k (by omega) hpos (by omega)
      subst hpk
      exact this
    · intro k q hk hq hpos hkj hk0 h00
      omega
  · intro a b ha hb hja hab
    rw [hsame a ha (by omega) hja, hsame b hb (by omega) (by omega),
      hget a (by omega) (by omega), hget b (by omega) (by omega)]
    by_cases haj : a = j
    · rw [if_pos haj]
      by_cases hbj : b = j
      · rw [if_pos hbj]
      · rw [if_neg hbj, if_neg (by omega)]
        exact hps 0 b h0 (by omega) (by omega) (by omega)
    · rw [if_neg haj, if_neg (by omega), if_neg (by omega), if_neg (by omega)]
      exact hsuf a b (by omega) (by omega) (by omega) hab
  · intro a b ha hb haj hjb
    rw [hsame b hb (by omega) hjb]
    refine heapify_bound j (u[b]) (j - 0) u w 0 rfl (by omega) hw ?_ a ha haj
    intro k hk hkj
    rw [hget k (by omega) hk, hget b (by omega) (by omega), if_neg (by omega)]
    by_cases hbj : b = j
    · rw [if_pos hbj]
      by_cases hk0 : k = 0
      · rw [if_pos hk0]
        exact hroot j hj (by omega)
      · rw [if_neg hk0]
        exact hroot k (by omega) (by omega)
    · rw [if_neg hbj, if_neg (show ¬ b = 0 by omega)]
      by_cases hk0 : k = 0
      · rw [if_pos hk0]
        exact hps j b hj (by omega) (by omega) (by omega)
      · rw [if_neg hk0]
        exact hps k b (by omega) (by omega) (by omega) (by omega)

/-- The extraction loop run over the whole of a max-heap sorts it. -/
theorem extract_loop_sorted (v : List α) (hheap : is_max_heap v v.length) :
    ∃ w, count_down extract_step v.length v = .ok w ∧ w.Perm v ∧ nondescending w := by
  obtain ⟨w, hw, hperm, -, hsuf, -⟩ := count_down_inv extract_step
    (fun j w => w.Perm v ∧ is_max_heap w j ∧
      (∀ a b (ha : a < w.length) (hb : b < w.length), j ≤ a → a ≤ b → w[a] ≤ w[b]) ∧
      (∀ a b (ha : a < w.length) (hb : b < w.length), a < j → j ≤ b → w[a] ≤ w[b]))
    v.length v
    ⟨List.Perm.refl v, hheap, by intro a b ha hb h1 h2; omega, by intro a b ha hb h1 h2; omega⟩
    (by
      intro j t hj hP
      obtain ⟨hperm, hheap, hsuf, hps⟩ := hP
      have hlen : t.length = v.length := hperm.length_eq
      obtain ⟨w, hw, hwperm, h1, h2, h3⟩ := extract_step_inv (by omega) hheap hsuf hps
      exact ⟨w, hw, hwperm.trans hperm, h1, h2, h3⟩)
  refine ⟨w, hw, hperm, ?_⟩
  intro k hk hpos
  exact hsuf (k - 1) k (by omega) hk (Nat.zero_le _) (by omega)

/-- For a vector of at most `2^31` elements `simple_heapsort` returns the
non-descending arrangement of its input. -/
theorem simple_heapsort_sorted (v : List α) (h : v.length ≤ 2 ^ 31) :
    ∃ w, simple_heapsort v = .ok w ∧ w.Perm v ∧ nondescending w := by
  obtain ⟨u, hu, huperm, huheap⟩ := build_heap_heap v
    (le_trans h (by norm_num))
  have hlen : u.length = v.length := huperm.length_eq
  rw [simple_heapsort_of_build hu, extract_count_of_le h, ← hlen]
  rw [← hlen] at huheap
  obtain ⟨w, hw, hwperm, hsorted⟩ := extract_loop_sorted u huheap
  exact ⟨w, hw, hwperm.trans huperm, hsorted⟩

theorem simple_heapsort_fixes_sorted (v : List α) (h : v.length ≤ 2 ^ 31)
    (hs : nondescending v) : simple_heapsort v = .ok v := by
  obtain ⟨w, hw, hperm, hsorted⟩ := simple_heapsort_sorted v h
  rw [hw, nondescending_unique hperm hsorted hs]

/-! ## `std_heapsort` -/

theorem std_heapsort_spec (lib : HeapLibrary α) (v : List α) :
    (std_heapsort lib v).Perm v ∧ nondescending (std_heapsort lib v) := by
  have h1 := lib.make_heap_perm v
  have h2 := lib.make_heap_heap v
  rw [← h1.length_eq] at h2
  exact ⟨(lib.sort_heap_perm _ h2).trans h1, lib.sort_heap_sorted _ h2⟩

/-- The library contract can be met: sorting in descending order builds a
max-heap and sorting in ascending order sorts one. -/
theorem heapLibrary_nonempty : Nonempty (HeapLibrary α) := by
  refine ⟨{
    make_heap := fun v => v.insertionSort (· ≥ ·)
    sort_heap := fun v => v.insertionSort (· ≤ ·)
    make_heap_perm := fun v => List.perm_insertionSort _ v
    make_heap_heap := ?_
    sort_heap_perm := fun v _ => List.perm_insertionSort _ v
    sort_heap_sorted := ?_ }⟩
  · intro v k hk hpos _
    dsimp only at hk ⊢
    have hs : List.Sorted (· ≥ ·) (v.insertionSort (· ≥ ·)) := List.sorted_insertionSort _ v
    rw [List.Sorted, List.pairwise_iff_getElem] at hs
    exact hs ((k - 1) / 2) k (by omega) hk (by omega)
  · intro v _ k hk hpos
    dsimp only at hk ⊢
    have hs : List.Sorted (· ≤ ·) (v.insertionSort (· ≤ ·)) := List.sorted_insertionSort _ v
    rw [List.Sorted, List.pairwise_iff_getElem] at hs
    exact hs (k - 1) k (by omega) hk (by omega)

theorem simple_heapsort_eq_std (lib : HeapLibrary α) (v : List α) (h : v.length ≤ 2 ^ 31) :
    simple_heapsort v = .ok (std_heapsort lib v) := by
  obtain ⟨w, hw, hperm, hsorted⟩ := simple_heapsort_sorted v h
  obtain ⟨hp2, hs2⟩ := std_heapsort_spec lib v
  rw [hw, nondescending_unique (hperm.trans hp2.symm) hsorted hs2]

/-! ## Vectors longer than `2^31`: the extraction loop does not run -/

theorem count_down_fixed {σ : Type} (body : Nat → σ → Except Fault σ) (s : σ)
    (h : ∀ j, body j s = .ok s) : ∀ k, count_down body k s = .ok s := by
  intro k
  induction k with
  | zero => rfl
  | succ k ih => simp [count_down, h k, ih]

theorem build_heap_of_heap (v : List α) (h : is_max_heap v v.length) :
    build_heap v = .ok v := by
  unfold build_heap
  apply count_down_fixed
  intro j
  apply heapify_of_dominates (le_refl _)
  intro c hc hj hcn hcj
  have := h c hc (by omega) hcn
  have hp : (c - 1) / 2 = j := by omega
  subst hp
  exact this

theorem extract_count_overflow : (extract_start (2 ^ 31 + 1) + 1).toNat = 0 := by
  rw [extract_start, to_int_val, size_sub_val]
  norm_num

/-- A vector whose first element is `1` and whose other `m` elements are `0`
is a max-heap; when the extraction loop does not run, `simple_heapsort`
returns it as it is, and it is not in non-descending order. -/
theorem heapsort_one_zeros (m : Nat) (hm : 0 < m)
    (hc : (extract_start (m + 1) + 1).toNat = 0) :
    simple_heapsort ((1 : Int) :: List.replicate m 0) = .ok (1 :: List.replicate m 0) ∧
      ¬ nondescending ((1 : Int) :: List.replicate m 0) := by
  have hlen : ((1 : Int) :: List.replicate m 0).length = m + 1 := by
    rw [List.length_cons, List.length_replicate]
  have hzero : ∀ k (hk : k < ((1 : Int) :: List.replicate m 0).length), 0 < k →
      ((1 : Int) :: List.replicate m 0)[k] = 0 := by
    intro k hk hpos
    obtain ⟨k, rfl⟩ : ∃ k', k = k' + 1 := ⟨k - 1, by omega⟩
    rw [List.getElem_cons_succ, List.getElem_replicate]
  have hheap : is_max_heap ((1 : Int) :: List.replicate m 0)
      ((1 : Int) :: List.replicate m 0).length := by
    intro k hk hpos _
    rw [hzero k hk hpos]
    by_cases hp : 0 < (k - 1) / 2
    · rw [hzero _ (by omega) hp]
    · have h0 : (k - 1) / 2 = 0 := by omega
      have hb : (k - 1) / 2 < ((1 : Int) :: List.replicate m 0).length := by omega
      have : ((1 : Int) :: List.replicate m 0)[(k - 1) / 2] = 1 := by
        simp only [h0, List.getElem_cons_zero]
      rw [this]
      norm_num
  constructor
  · rw [simple_heapsort_of_build (build_heap_of_heap _ hheap), hlen, hc]
    rfl
  · intro hs
    have h1 := hs 1 (by omega) (by omega)
    rw [hzero 1 (by omega) (by omega)] at h1
    simp at h1

theorem build_count_overflow : 2 ^ 31 + 1 ≤ 2 ^ 32 := by norm_num

/-- A vector of `m` zeros followed by a `1` is in non-descending order; when
the extraction loop does not run, `simple_heapsort` returns the heap built from
it, which has the `1` at the root and so differs from the input. -/
theorem heapsort_zeros_one (m : Nat) (hm : 0 < m) (hlen : m + 1 ≤ 2 ^ 32)
    (hc : (extract_start (m + 1) + 1).toNat = 0) :
    nondescending (List.replicate m (0 : Int) ++ [1]) ∧
      ∃ w, simple_heapsort (List.replicate m (0 : Int) ++ [1]) = .ok w ∧
        w ≠ List.replicate m (0 : Int) ++ [1] := by
  have hl : (List.replicate m (0 : Int) ++ [1]).length = m + 1 := by
    rw [List.length_append, List.length_replicate, List.length_singleton]
  have hlow : ∀ k (hk : k < (List.replicate m (0 : Int) ++ [1]).length), k < m →
      (List.replicate m (0 : Int) ++ [1])[k] = 0 := by
    intro k hk hkm
    rw [List.getElem_append_left (by rw [List.length_replicate]; exact hkm),
      List.getElem_replicate]
  have hlast : ∀ (hk : m < (List.replicate m (0 : Int) ++ [1]).length),
      (List.replicate m (0 : Int) ++ [1])[m] = 1 := by
    intro hk
    rw [List.getElem_append_right (by rw [List.length_replicate])]
    simp
  constructor
  · intro k hk hpos
    rw [hlow (k - 1) (by omega) (by omega)]
    by_cases hkm : k < m
    · rw [hlow k hk hkm]
    · have : k = m := by omega
      subst this
      rw [hlast hk]
      norm_num
  · obtain ⟨u, hu, -, hheap⟩ := build_heap_heap (List.replicate m (0 : Int) ++ [1])
      (by rw [hl]; exact hlen)
    refine ⟨u, ?_, ?_⟩
    · rw [simple_heapsort_of_build hu, hl, hc]
      rfl
    · intro heq
      subst heq
      have h1 := heap_root_max hheap m (by omega) (by omega) (by omega)
      rw [hlast (by omega), hlow 0 (by omega) hm] at h1
      norm_num at h1

/-! ## Claims about the two sorting strategies -/

/-- C1: the claim that `simple_heapsort` leaves every vector of length at least
one in non-descending order fails on the vector of length `2^31 + 1` whose
first element is `1` and whose other elements are `0`: the start value
`n - 1 = 2^31` of the extraction loop narrows to a negative `int`, the loop
does not run, and the vector comes back unchanged with `v[0] > v[1]`. -/
theorem simple_heapsort_unsorted_at_large_length :
    ((1 : Int) :: List.replicate (2 ^ 31) 0).length = 2 ^ 31 + 1 ∧
      extract_start (2 ^ 31 + 1) = -2147483648 ∧
      simple_heapsort ((1 : Int) :: List.replicate (2 ^ 31) 0)
        = .ok (1 :: List.replicate (2 ^ 31) 0) ∧
      ¬ nondescending ((1 : Int) :: List.replicate (2 ^ 31) 0) :=
  ⟨by rw [List.length_cons, List.length_replicate],
    by rw [extract_start, to_int_val, size_sub_val]; norm_num,
    (heapsort_one_zeros (2 ^ 31) (by norm_num) extract_count_overflow).1,
    (heapsort_one_zeros (2 ^ 31) (by norm_num) extract_count_overflow).2⟩

/-- C2: for every input vector `simple_heapsort` returns normally, and its
result has the length of the input and is a permutation of it. -/
theorem simple_heapsort_length_perm (v : List α) :
    ∃ w, simple_heapsort v = .ok w ∧ w.length = v.length ∧ w.Perm v := by
  obtain ⟨w, hw, hperm⟩ := simple_heapsort_ok v
  exact ⟨w, hw, hperm.length_eq, hperm⟩

/-- C3: the claim that `simple_heapsort` returns every non-descending vector
unchanged fails on the vector of `2^31` zeros followed by a `1`: the build
phase moves the `1` to the root and the extraction loop, whose start value
narrows to a negative `int`, does not run. -/
theorem simple_heapsort_moves_sorted_at_large_length :
    nondescending (List.replicate (2 ^ 31) (0 : Int) ++ [1]) ∧
      ∃ w, simple_heapsort (List.replicate (2 ^ 31) (0 : Int) ++ [1]) = .ok w ∧
        w ≠ List.replicate (2 ^ 31) (0 : Int) ++ [1] :=
  heapsort_zeros_one (2 ^ 31) (by norm_num) build_count_overflow extract_count_overflow

/-- C4: on the empty vector both loop start values are `-1`, so both loops run
zero times whatever their body is, and `simple_heapsort` returns the empty
vector. -/
theorem simple_heapsort_nil :
    build_start 0 = -1 ∧ extract_start 0 = -1 ∧
      (∀ (body : Nat → List α → Except Fault (List α)) (s : List α),
        count_down body (build_start ([] : List α).length + 1).toNat s = .ok s) ∧
      (∀ (body : Nat → List α → Except Fault (List α)) (s : List α),
        count_down body (extract_start ([] : List α).length + 1).toNat s = .ok s) ∧
      simple_heapsort ([] : List α) = .ok [] := by
  have hb : build_start 0 = -1 := by
    rw [build_start, to_int_val, size_sub_val]; norm_num
  have he : extract_start 0 = -1 := by
    rw [extract_start, to_int_val, size_sub_val]; norm_num
  refine ⟨hb, he, ?_, ?_, ?_⟩
  · intro body s
    rw [List.length_nil, hb]
    rfl
  · intro body s
    rw [List.length_nil, he]
    rfl
  · obtain ⟨w, hw, hperm⟩ := simple_heapsort_ok ([] : List α)
    rw [hw, List.Perm.eq_nil hperm]

/-- C5: `simple_heapsort` applied to `N` copies of a value `c` returns `N`
copies of `c`. -/
theorem simple_heapsort_replicate (c : α) (N : Nat) :
    simple_heapsort (List.replicate N c) = .ok (List.replicate N c) := by
  obtain ⟨w, hw, hperm⟩ := simple_heapsort_ok (List.replicate N c)
  rw [hw, List.perm_replicate.mp hperm]

/-- C6: `verify` throws "Verification failed" exactly when the vector has an
inversion, and returns normally exactly when it has none, which includes every
vector of length zero or one. -/
theorem verify_throws_iff_inversion (v : List α) :
    (verify v = .error (.thrown "Verification failed") ↔ has_inversion v) ∧
      (verify v = .ok () ↔ ¬ has_inversion v) ∧
      (¬ has_inversion v ↔ ∀ i (_ : i < v.length), 0 < i → v[i - 1] ≤ v[i]) ∧
      (v.length ≤ 1 → verify v = .ok ()) := by
  refine ⟨verify_error_iff v, verify_ok_iff v, not_has_inversion_iff v, ?_⟩
  intro hlen
  rw [verify_ok_iff]
  rintro ⟨i, hi, hpos, -⟩
  omega

/-- C7: the claim that the two strategies return the same vector fails on the
vector of length `2^31 + 1` whose first element is `1` and whose other
elements are `0`: `simple_heapsort` returns it unchanged, while `std_heapsort`
returns a non-descending vector, whatever library meets the contract. -/
theorem simple_heapsort_ne_std_at_large_length (lib : HeapLibrary Int) :
    simple_heapsort ((1 : Int) :: List.replicate (2 ^ 31) 0)
        = .ok (1 :: List.replicate (2 ^ 31) 0) ∧
      nondescending (std_heapsort lib ((1 : Int) :: List.replicate (2 ^ 31) 0)) ∧
      simple_heapsort ((1 : Int) :: List.replicate (2 ^ 31) 0)
        ≠ .ok (std_heapsort lib ((1 : Int) :: List.replicate (2 ^ 31) 0)) := by
  obtain ⟨h1, h2⟩ := heapsort_one_zeros (2 ^ 31) (by norm_num) extract_count_overflow
  have h3 := (std_heapsort_spec lib ((1 : Int) :: List.replicate (2 ^ 31) 0)).2
  refine ⟨h1, h3, ?_⟩
  intro h
  rw [h1] at h
  injection h with h
  rw [← h] at h3
  exact h2 h3

/-- C8: `std_heapsort` leaves every vector in non-descending order, and
between two positions that hold equal values every position holds that value,
so equal values are adjacent. -/
theorem std_heapsort_nondescending (lib : HeapLibrary α) (v : List α) :
    (∀ k (_ : k < (std_heapsort lib v).length), 1 ≤ k →
        (std_heapsort lib v)[k - 1] ≤ (std_heapsort lib v)[k]) ∧
      ∀ i k j (_ : i ≤ k) (_ : k ≤ j) (_ : j < (std_heapsort lib v).length),
        (std_heapsort lib v)[i] = (std_heapsort lib v)[j] →
        (std_heapsort lib v)[k] = (std_heapsort lib v)[i] := by
  have hs := (std_heapsort_spec lib v).2
  refine ⟨fun k hk hpos => hs k hk hpos, ?_⟩
  intro i k j hik hkj hj heq
  have h1 := nondescending_le hs k i (by omega) (by omega) hik
  have h2 := nondescending_le hs j k hj (by omega) hkj
  rw [← heq] at h2
  exact le_antisymm h2 h1

end SortingFacts

/-! ## The timing harness -/

section HarnessFacts

variable {α : Type}

theorem narrow_of_fits {x : Int} (h : fits_int x) : narrow x = x := by
  unfold fits_int INT_MIN INT_MAX at h
  unfold narrow INT_MOD
  norm_num at h ⊢
  split <;> omega

theorem narrowed_sum_succ (env : Env α) (w : World) (j : Nat) :
    narrowed_sum env w (j + 1)
      = narrowed_sum env w j + narrow (env.millis (w.timed_calls + j)) := by
  simp [narrowed_sum, List.range_succ]

theorem elapsed_sum_succ (env : Env α) (w : World) (j : Nat) :
    elapsed_sum env w (j + 1) = elapsed_sum env w j + env.millis (w.timed_calls + j) := by
  simp [elapsed_sum, List.range_succ]

theorem narrowed_sum_eq_elapsed (env : Env α) (w : World) :
    ∀ j, (∀ i, i < j → fits_int (env.millis (w.timed_calls + i))) →
      narrowed_sum env w j = elapsed_sum env w j := by
  intro j
  induction j with
  | zero => intro _; rfl
  | succ j ih =>
    intro h
    rw [narrowed_sum_succ, elapsed_sum_succ, ih (fun i hi => h i (by omega)),
      narrow_of_fits (h j (by omega))]

/-- Invariant rule for the counting loop. -/
theorem repeat_loop_inv {σ : Type} (body : σ → Except Fault σ) :
    ∀ (k : Nat) (P : Nat → σ → Prop) (s : σ), P 0 s →
      (∀ j t, j < k → P j t → ∃ t', body t = .ok t' ∧ P (j + 1) t') →
      ∃ t, repeat_loop body k s = .ok t ∧ P k t := by
  intro k
  induction k with
  | zero => intro P s h0 _; exact ⟨s, rfl, h0⟩
  | succ k ih =>
    intro P s h0 hstep
    obtain ⟨t, ht, hPt⟩ := hstep 0 s (by omega) h0
    obtain ⟨u, hu, hPu⟩ := ih (fun j => P (j + 1)) t hPt
      (fun j t hj hP => hstep (j + 1) t (by omega) hP)
    exact ⟨u, by simp [repeat_loop, ht, hu], hPu⟩

/-- A loop whose first `j` iterations succeed and whose next iteration fails,
fails with the same fault. -/
theorem repeat_loop_fault {σ : Type} (body : σ → Except Fault σ) (e : Fault) :
    ∀ (j r : Nat) (s t : σ), repeat_loop body j s = .ok t → body t = .error e →
      repeat_loop body (j + 1 + r) s = .error e := by
  intro j
  induction j with
  | zero =>
    intro r s t hs ht
    simp only [repeat_loop] at hs
    injection hs with hs
    subst hs
    rw [show 0 + 1 + r = r + 1 by omega]
    simp [repeat_loop, ht]
  | succ j ih =>
    intro r s t hs ht
    rw [show j + 1 + 1 + r = (j + 1 + r) + 1 by omega]
    simp only [repeat_loop] at hs ⊢
    cases hb : body s with
    | error e' => rw [hb] at hs; cases hs
    | ok s' =>
      rw [hb] at hs
      simp only
      exact ih r s' t hs ht

theorem warmup_loop_ok (env : Env α) (w : World) (size : Nat)
    (f : List α → Except Fault (List α)) (k : Nat)
    (hf : ∀ j, j < k → ∃ out, f (nth_sequence env w size j) = .ok out) :
    repeat_loop (warmup_pass env size f) k w
      = .ok { rand_calls := w.rand_calls + k * size, timed_calls := w.timed_calls } := by
  obtain ⟨t, ht, hP⟩ := repeat_loop_inv (warmup_pass env size f) k
    (fun j t => t = { rand_calls := w.rand_calls + j * size, timed_calls := w.timed_calls })
    w (by simp) (by
      intro j t hj hP
      subst hP
      obtain ⟨out, hout⟩ := hf j hj
      refine ⟨_, ?_, rfl⟩
      unfold warmup_pass
      unfold nth_sequence at hout
      rw [hout]
      simp [generate, Nat.succ_mul, Nat.add_assoc])
  rw [ht, hP]

end HarnessFacts

section EstimateFacts

variable {α : Type} [LinearOrder α]

theorem measured_loop_ok (env : Env α) (w : World) (size : Nat)
    (f : List α → Except Fault (List α)) (c k : Nat)
    (hf : ∀ j, j < k → ∃ out, f (nth_sequence env w size (c + j)) = .ok out ∧
      ¬ has_inversion out)
    (hsum : ∀ j, j ≤ k → fits_int (narrowed_sum env w j)) :
    repeat_loop (measured_pass env size f) k
        ({ rand_calls := w.rand_calls + c * size, timed_calls := w.timed_calls }, 0)
      = .ok ({ rand_calls := w.rand_calls + (c + k) * size,
               timed_calls := w.timed_calls + k }, narrowed_sum env w k) := by
  obtain ⟨t, ht, hP⟩ := repeat_loop_inv (measured_pass env size f) k
    (fun j t => t = (({ rand_calls := w.rand_calls + (c + j) * size,
                        timed_calls := w.timed_calls + j } : World), narrowed_sum env w j))
    ({ rand_calls := w.rand_calls + c * size, timed_calls := w.timed_calls }, 0)
    (by simp [narrowed_sum]) (by
      intro j t hj hP
      subst hP
      obtain ⟨out, hout, hsorted⟩ := hf j hj
      refine ⟨_, ?_, rfl⟩
      unfold measured_pass with_time
      unfold nth_sequence at hout
      simp only [generate] at hout ⊢
      rw [hout]
      simp only [(verify_ok_iff out).mpr hsorted]
      have hfit := hsum (j + 1) (by omega)
      rw [narrowed_sum_succ] at hfit
      rw [if_pos hfit, narrowed_sum_succ]
      simp [Nat.succ_mul, Nat.add_mul, Nat.add_assoc])
  rw [ht, hP]

/-- Value of `estimate` on a run in which every invocation returns, every
measured result passes `verify` and the running total stays within `int`. -/
theorem estimate_value (env : Env α) (w : World) (size : Nat)
    (f : List α → Except Fault (List α))
    (hf : ∀ k, k < WARMUPS.toNat + TEST_RUNS.toNat →
      ∃ out, f (nth_sequence env w size k) = .ok out ∧
        (WARMUPS.toNat ≤ k → ¬ has_inversion out))
    (hsum : ∀ j, j ≤ TEST_RUNS.toNat → fits_int (narrowed_sum env w j)) :
    estimate env w size f
      = .ok (Int.tdiv (narrowed_sum env w TEST_RUNS.toNat) TEST_RUNS,
          { rand_calls := w.rand_calls + (WARMUPS.toNat + TEST_RUNS.toNat) * size,
            timed_calls := w.timed_calls + TEST_RUNS.toNat }) := by
  unfold estimate
  rw [warmup_loop_ok env w size f WARMUPS.toNat (fun j hj => by
    obtain ⟨out, hout, -⟩ := hf j (by omega)
    exact ⟨out, hout⟩)]
  simp only
  rw [measured_loop_ok env w size f WARMUPS.toNat TEST_RUNS.toNat (fun j hj => by
    obtain ⟨out, hout, hs⟩ := hf (WARMUPS.toNat + j) (by omega)
    exact ⟨out, hout, hs (by omega)⟩) hsum]
  simp only
  have hdiv : ∀ a : Int, int_div a TEST_RUNS = .ok (Int.tdiv a TEST_RUNS) := by
    intro a
    unfold int_div TEST_RUNS
    norm_num
  rw [hdiv]

/-- When the run reaches a measured pass in which the strategy leaves an
inversion, `estimate` throws. -/
theorem estimate_of_unsorted_pass (env : Env α) (w : World) (size : Nat)
    (f : List α → Except Fault (List α)) (j : Nat) (hj : j < TEST_RUNS.toNat)
    (w1 w2 : World) (e : Int) (out : List α)
    (hwarm : repeat_loop (warmup_pass env size f) WARMUPS.toNat w = .ok w1)
    (hmeas : repeat_loop (measured_pass env size f) j (w1, 0) = .ok (w2, e))
    (hout : f (generate env w2 size).1 = .ok out)
    (hinv : has_inversion out) :
    estimate env w size f = .error (.thrown "Verification failed") := by
  have hbody : measured_pass env size f (w2, e) = .error (.thrown "Verification failed") := by
    unfold measured_pass with_time
    simp only
    rw [hout]
    simp only [(verify_error_iff out).mpr hinv]
  have hloop := repeat_loop_fault (measured_pass env size f) _ j (TEST_RUNS.toNat - (j + 1))
    (w1, 0) (w2, e) hmeas hbody
  rw [show j + 1 + (TEST_RUNS.toNat - (j + 1)) = TEST_RUNS.toNat by omega] at hloop
  unfold estimate
  rw [hwarm]
  simp only
  rw [hloop]

/-! ## Claims about `estimate` -/

theorem first_pair_sequences (k : Nat) (hk : k < 6) :
    nth_sequence env_first_pair_unsorted ⟨0, 0⟩ 2 k
      = if k = 0 then [5, 1] else [(2 * k : Int), 2 * k + 1] := by
  interval_cases k <;> rfl

/-- C9, counterexample: with the identity as strategy the warmup invocation
leaves the pair `[5, 1]`, which has an inversion, and `estimate` still returns
the average 7. -/
theorem estimate_returns_despite_unsorted_warmup :
    nth_sequence env_first_pair_unsorted ⟨0, 0⟩ 2 0 = [5, 1] ∧
      has_inversion ([5, 1] : List Int) ∧
      estimate env_first_pair_unsorted ⟨0, 0⟩ 2 (fun v => .ok v)
        = .ok (7, { rand_calls := 12, timed_calls := 5 }) := by
  refine ⟨rfl, ⟨1, by decide, by decide, by decide⟩, ?_⟩
  have h := estimate_value env_first_pair_unsorted ⟨0, 0⟩ 2 (fun v => .ok v)
    (by
      intro k hk
      have hk6 : k < 6 := hk
      refine ⟨_, rfl, ?_⟩
      intro hw
      have hk1 : 1 ≤ k := hw
      rw [first_pair_sequences k hk6, if_neg (by omega)]
      rintro ⟨i, hi, hpos, hlt⟩
      have hi1 : i = 1 := by
        simp only [List.length_cons, List.length_nil] at hi
        omega
      subst hi1
      simp at hlt)
    (by
      intro j hj
      have hj5 : j ≤ 5 := hj
      interval_cases j <;> decide)
  rw [h]
  rfl

/-- C9, amended: when the run of `estimate` reaches a measured pass (the
warmups and the first `j` measured passes have completed) and the strategy
leaves the vector of that pass with an inversion, `estimate` terminates with
the "Verification failed" error. -/
theorem estimate_throws_on_unsorted_measured_pass (env : Env α) (w : World) (size : Nat)
    (f : List α → Except Fault (List α)) (j : Nat) (hj : j < TEST_RUNS.toNat)
    (w1 w2 : World) (e : Int) (out : List α)
    (hwarm : repeat_loop (warmup_pass env size f) WARMUPS.toNat w = .ok w1)
    (hmeas : repeat_loop (measured_pass env size f) j (w1, 0) = .ok (w2, e))
    (hout : f (generate env w2 size).1 = .ok out)
    (hinv : has_inversion out) :
    estimate env w size f = .error (.thrown "Verification failed") :=
  estimate_of_unsorted_pass env w size f j hj w1 w2 e out hwarm hmeas hout hinv

/-- C9, witness: with list reversal as strategy the first measured pass turns
the pair `[2, 3]` into `[3, 2]` and `estimate` throws. -/
theorem estimate_throws_on_unsorted_measured_pass_witness :
    has_inversion ([3, 2] : List Int) ∧
      estimate env_first_pair_unsorted ⟨0, 0⟩ 2 (fun v => .ok v.reverse)
        = .error (.thrown "Verification failed") :=
  ⟨⟨1, by decide, by decide, by decide⟩,
    estimate_throws_on_unsorted_measured_pass env_first_pair_unsorted ⟨0, 0⟩ 2
      (fun v => .ok v.reverse) 0 (by decide) ⟨2, 0⟩ ⟨2, 0⟩ 0 [3, 2] rfl rfl rfl
      ⟨1, by decide, by decide, by decide⟩⟩

theorem nth_sequence_length {β : Type} (env : Env β) (w : World) (size k : Nat) :
    (nth_sequence env w size k).length = size := by
  simp [nth_sequence, generate]

/-- On vectors of three elements `simple_heapsort` returns normally with a
result that passes `verify`. -/
theorem simple_heapsort_passes (env : Env α) (w : World) (k : Nat) :
    ∃ out, simple_heapsort (nth_sequence env w 3 k) = .ok out ∧ ¬ has_inversion out := by
  obtain ⟨out, hout, -, hsorted⟩ := simple_heapsort_sorted (nth_sequence env w 3 k)
    (by rw [nth_sequence_length]; norm_num)
  exact ⟨out, hout, (not_has_inversion_iff out).mpr hsorted⟩

/-- C10, counterexample: every invocation returns a sorted vector, the first
measured pass takes `2^31` ms and the other four take 0 ms; `with_time` narrows
`2^31` to `-2^31`, so `estimate` returns `-429496729`, while the mean of the
elapsed milliseconds is `429496729`. -/
theorem estimate_mean_wrong_for_long_pass :
    (∀ k, k < 6 → ∃ out, simple_heapsort (nth_sequence env_long_pass ⟨0, 0⟩ 3 k) = .ok out ∧
        ¬ has_inversion out) ∧
      estimate env_long_pass ⟨0, 0⟩ 3 simple_heapsort
        = .ok (-429496729, { rand_calls := 18, timed_calls := 5 }) ∧
      Int.tdiv (elapsed_sum env_long_pass ⟨0, 0⟩ 5) 5 = 429496729 := by
  refine ⟨fun k _ => simple_heapsort_passes _ _ k, ?_, by decide⟩
  have h := estimate_value env_long_pass ⟨0, 0⟩ 3 simple_heapsort
    (fun k _ => by
      obtain ⟨out, hout, hs⟩ := simple_heapsort_passes env_long_pass ⟨0, 0⟩ k
      exact ⟨out, hout, fun _ => hs⟩)
    (by
      intro j hj
      have hj5 : j ≤ 5 := hj
      interval_cases j <;> decide)
  rw [h]
  rfl

/-- C10, amended: when every invocation of the strategy returns, every
measured result passes `verify`, every measured pass's elapsed milliseconds
fit in an `int` and so does each running total, `estimate` returns the sum of
the `TEST_RUNS` measured passes' elapsed milliseconds divided by `TEST_RUNS`
with truncation toward zero; the warmup passes are not timed. -/
theorem estimate_returns_truncated_mean (env : Env α) (w : World) (size : Nat)
    (f : List α → Except Fault (List α))
    (hf : ∀ k, k < WARMUPS.toNat + TEST_RUNS.toNat →
      ∃ out, f (nth_sequence env w size k) = .ok out ∧
        (WARMUPS.toNat ≤ k → ¬ has_inversion out))
    (hfit : ∀ i, i < TEST_RUNS.toNat → fits_int (env.millis (w.timed_calls + i)))
    (hsum : ∀ j, j ≤ TEST_RUNS.toNat → fits_int (elapsed_sum env w j)) :
    estimate env w size f
      = .ok (Int.tdiv (elapsed_sum env w TEST_RUNS.toNat) TEST_RUNS,
          { rand_calls := w.rand_calls + (WARMUPS.toNat + TEST_RUNS.toNat) * size,
            timed_calls := w.timed_calls + TEST_RUNS.toNat }) := by
  have heq : ∀ j, j ≤ TEST_RUNS.toNat → narrowed_sum env w j = elapsed_sum env w j :=
    fun j hj => narrowed_sum_eq_elapsed env w j (fun i hi => hfit i (by omega))
  rw [estimate_value env w size f hf (fun j hj => by rw [heq j hj]; exact hsum j hj),
    heq _ (le_refl _)]

/-- C10, witness: five measured passes of 3, 13, 23, 33 and 43 ms around
`simple_heapsort` on vectors of three elements give the average 23. -/
theorem estimate_returns_truncated_mean_witness :
    (∀ k, k < WARMUPS.toNat + TEST_RUNS.toNat →
        ∃ out, simple_heapsort (nth_sequence env_steady ⟨0, 0⟩ 3 k) = .ok out ∧
          (WARMUPS.toNat ≤ k → ¬ has_inversion out)) ∧
      (∀ i, i < TEST_RUNS.toNat → fits_int (env_steady.millis ((⟨0, 0⟩ : World).timed_calls + i))) ∧
      (∀ j, j ≤ TEST_RUNS.toNat → fits_int (elapsed_sum env_steady ⟨0, 0⟩ j)) ∧
      estimate env_steady ⟨0, 0⟩ 3 simple_heapsort
        = .ok (Int.tdiv (elapsed_sum env_steady ⟨0, 0⟩ TEST_RUNS.toNat) TEST_RUNS,
            { rand_calls := 0 + (WARMUPS.toNat + TEST_RUNS.toNat) * 3,
              timed_calls := 0 + TEST_RUNS.toNat }) ∧
      Int.tdiv (elapsed_sum env_steady ⟨0, 0⟩ TEST_RUNS.toNat) TEST_RUNS = 23 :=
  have hf : ∀ k, k < WARMUPS.toNat + TEST_RUNS.toNat →
      ∃ out, simple_heapsort (nth_sequence env_steady ⟨0, 0⟩ 3 k) = .ok out ∧
        (WARMUPS.toNat ≤ k → ¬ has_inversion out) := fun k _ => by
    obtain ⟨out, hout, hs⟩ := simple_heapsort_passes env_steady ⟨0, 0⟩ k
    exact ⟨out, hout, fun _ => hs⟩
  have hfit : ∀ i, i < TEST_RUNS.toNat →
      fits_int (env_steady.millis ((⟨0, 0⟩ : World).timed_calls + i)) := fun i hi => by
    have hi5 : i < 5 := hi
    interval_cases i <;> decide
  have hsum : ∀ j, j ≤ TEST_RUNS.toNat → fits_int (elapsed_sum env_steady ⟨0, 0⟩ j) :=
    fun j hj => by
      have hj5 : j ≤ 5 := hj
      interval_cases j <;> decide
  ⟨hf, hfit, hsum,
    estimate_returns_truncated_mean env_steady ⟨0, 0⟩ 3 simple_heapsort hf hfit hsum,
    by decide⟩

end EstimateFacts

/-! ## Subtrees and the frame of `heapify` -/

theorem in_subtree_ge {i k : Nat} (h : in_subtree i k) : i ≤ k := by
  induction h with
  | root => exact le_refl _
  | left _ ih => omega
  | right _ ih => omega

theorem in_subtree_of_left {i k : Nat} (h : in_subtree (2 * i + 1) k) : in_subtree i k := by
  induction h with
  | root => exact in_subtree.left in_subtree.root
  | left _ ih => exact in_subtree.left ih
  | right _ ih => exact in_subtree.right ih

theorem in_subtree_of_right {i k : Nat} (h : in_subtree (2 * i + 2) k) : in_subtree i k := by
  induction h with
  | root => exact in_subtree.right in_subtree.root
  | left _ ih => exact in_subtree.left ih
  | right _ ih => exact in_subtree.right ih

theorem in_subtree_cases {i k : Nat} (h : in_subtree i k) :
    k = i ∨ in_subtree (2 * i + 1) k ∨ in_subtree (2 * i + 2) k := by
  induction h with
  | root => exact Or.inl rfl
  | @left j _ ih =>
    rcases ih with h | h | h
    · subst h; exact Or.inr (Or.inl in_subtree.root)
    · exact Or.inr (Or.inl (in_subtree.left h))
    · exact Or.inr (Or.inr (in_subtree.left h))
  | @right j _ ih =>
    rcases ih with h | h | h
    · subst h; exact Or.inr (Or.inr in_subtree.root)
    · exact Or.inr (Or.inl (in_subtree.right h))
    · exact Or.inr (Or.inr (in_subtree.right h))

section HeapifyFacts

variable {α : Type} [LinearOrder α]

/-- `heapify` changes no position outside the subtree rooted at `i`. -/
theorem heapify_frame_subtree (n : Nat) :
    ∀ (d : Nat) (v w : List α) (i : Nat), n - i = d → n ≤ v.length →
      heapify v n i = .ok w → ∀ k, ¬ in_subtree i k → w[k]? = v[k]? := by
  intro d
  induction d using Nat.strong_induction_on with
  | _ d ih =>
    intro v w i hd hn hw k hk
    rw [heapify_unfold] at hw
    by_cases hi : i < n
    · obtain ⟨m, hm, hsel, hmn, hcases, -, -⟩ := heapify_largest_spec hn hi
      have hiv : i < v.length := by omega
      rw [hsel] at hw
      by_cases hmi : m = i
      · subst hmi
        simp only [ne_eq, not_true_eq_false, if_false] at hw
        injection hw with hw
        rw [hw]
      · simp only [ne_eq, hmi, not_false_eq_true, if_true] at hw
        obtain ⟨u, hu, -, hulen, hframe, -, -⟩ := swap_ok hiv hm
        rw [hu] at hw
        have hsub : in_subtree i m := by
          rcases hcases with h | h | h
          · exact absurd h hmi
          · rw [h]; exact in_subtree.left in_subtree.root
          · rw [h]; exact in_subtree.right in_subtree.root
        have hkm : ¬ in_subtree m k := by
          intro h
          apply hk
          rcases hcases with h1 | h1 | h1
          · exact absurd h1 hmi
          · rw [h1] at h; exact in_subtree_of_left h
          · rw [h1] at h; exact in_subtree_of_right h
        rw [ih (n - m) (by omega) u w m rfl (by omega) hw k hkm]
        apply hframe
        · intro h; apply hk; rw [h]; exact in_subtree.root
        · intro h; apply hk; rw [h]; exact hsub
    · rw [heapify_largest_of_ge v (by omega)] at hw
      simp only [ne_eq, not_true_eq_false, if_false] at hw
      injection hw with hw
      rw [hw]

theorem subtree_heap_of_heapify {v : List α} {n i : Nat} (hn : n ≤ v.length) (hi : i < n)
    (hl : subtree_heap v n (2 * i + 1)) (hr : subtree_heap v n (2 * i + 2)) :
    ∃ w, heapify v n i = .ok w ∧ subtree_heap w n i := by
  obtain ⟨w, hw, -, hlen, -⟩ := heapify_ok n (n - i) v i rfl hn
  refine ⟨w, hw, ?_⟩
  have key := heapify_restores (in_subtree i)
    (fun j hj => ⟨in_subtree.left hj, in_subtree.right hj⟩) n (n - i) v w i rfl hn hi
    in_subtree.root hw
    (by
      intro k p hk hp hpos hkn hpk hSp hpi
      rcases in_subtree_cases hSp with h | h | h
      · exact absurd h hpi
      · exact hl p k hp hk h (by omega) hkn
      · exact hr p k hp hk h (by omega) hkn)
    (by
      intro k q hk hq hpos hkn hki hipos hqi hSq
      have := in_subtree_ge hSq
      omega)
  intro j c hj hc hsub hcj hcn
  exact key c j hc hj (by omega) hcn (by omega) hsub

/-- When `heapify` picks the right child, the right child exceeds the left
one. -/
theorem heapify_largest_right {v : List α} {n i : Nat}
    (h : heapify_largest v n i = .ok (2 * i + 2)) (hr : 2 * i + 2 < v.length) :
    v[2 * i + 1] < v[2 * i + 2] := by
  have hlv : 2 * i + 1 < v.length := by omega
  have hiv : i < v.length := by omega
  unfold heapify_largest at h
  simp only at h
  by_cases hrn : 2 * i + 2 < n
  · have hln : 2 * i + 1 < n := by omega
    simp only [hln, hrn, if_true, read_of_lt hlv, read_of_lt hiv, read_of_lt hr] at h
    by_cases h1 : v[i] < v[2 * i + 1]
    · simp only [h1, if_true, read_of_lt hlv] at h
      by_cases h2 : v[2 * i + 1] < v[2 * i + 2]
      · exact h2
      · simp only [h2, if_false] at h
        injection h with h
        omega
    · simp only [h1, if_false, read_of_lt hiv] at h
      by_cases h2 : v[i] < v[2 * i + 2]
      · exact lt_of_le_of_lt (not_lt.mp h1) h2
      · simp only [h2, if_false] at h
        injection h with h
        omega
  · by_cases hln : 2 * i + 1 < n
    · simp only [hln, hrn, if_true, if_false, read_of_lt hlv, read_of_lt hiv] at h
      split at h <;> · injection h with h; omega
    · simp only [hln, hrn, if_false] at h
      injection h with h
      omega

/-! ## The traced `heapify` -/

theorem heapify_largest_traced_spec {v : List α} {n : Nat} (i : Nat) (hn : n ≤ v.length) :
    ∃ m reads, heapify_largest_traced v n i = .ok (m, reads) ∧
      heapify_largest v n i = .ok m ∧ ∀ a ∈ reads, a < n := by
  unfold heapify_largest_traced heapify_largest
  simp only
  by_cases hl : 2 * i + 1 < n
  · have hlv : 2 * i + 1 < v.length := by omega
    have hiv : i < v.length := by omega
    by_cases hr : 2 * i + 2 < n
    · have hrv : 2 * i + 2 < v.length := by omega
      simp only [hl, hr, if_true, read_of_lt hlv, read_of_lt hiv, read_of_lt hrv]
      by_cases h1 : v[i] < v[2 * i + 1]
      · simp only [h1, if_true, read_of_lt hlv]
        refine ⟨_, _, rfl, rfl, ?_⟩
        intro a ha
        simp only [List.cons_append, List.nil_append, List.mem_cons, List.mem_singleton,
          List.not_mem_nil, or_false] at ha
        omega
      · simp only [h1, if_false, read_of_lt hiv]
        refine ⟨_, _, rfl, rfl, ?_⟩
        intro a ha
        simp only [List.cons_append, List.nil_append, List.mem_cons, List.mem_singleton,
          List.not_mem_nil, or_false] at ha
        omega
    · simp only [hl, hr, if_true, if_false, read_of_lt hlv, read_of_lt hiv]
      refine ⟨_, _, rfl, rfl, ?_⟩
      intro a ha
      simp only [List.mem_cons, List.mem_singleton, List.not_mem_nil, or_false] at ha
      omega
  · have hr : ¬ 2 * i + 2 < n := by omega
    simp only [hl, hr, if_false]
    exact ⟨_, _, rfl, rfl, by simp⟩

/-- The traced `heapify` returns the vector `heapify` returns; every index it
reads or writes is below `n`; every nested call is on a child of the index of
the call that makes it; and `i + 1` doubled once per nested call stays within
`n`. -/
theorem heapify_traced_spec (n : Nat) :
    ∀ (d : Nat) (v : List α) (i : Nat), n - i = d → n ≤ v.length → i < n →
      ∃ w accesses calls, heapify_traced v n i = .ok (w, accesses, calls) ∧
        heapify v n i = .ok w ∧ (∀ a ∈ accesses, a < n) ∧
        List.Chain (fun j c => (c = 2 * j + 1 ∨ c = 2 * j + 2) ∧ j < c) i calls ∧
        (i + 1) * 2 ^ calls.length ≤ n := by
  intro d
  induction d using Nat.strong_induction_on with
  | _ d ih =>
    intro v i hd hn hi
    obtain ⟨m, reads, htr, hsel, hreads⟩ := heapify_largest_traced_spec i hn
    obtain ⟨m', hm, hsel', hmn, hcases, -, -⟩ := heapify_largest_spec hn hi
    have hmm : m' = m := by
      rw [hsel] at hsel'
      injection hsel' with h
      exact h.symm
    subst hmm
    have hiv : i < v.length := by omega
    rw [heapify_traced, heapify_unfold, hsel]
    by_cases hmi : m' = i
    · subst hmi
      refine ⟨v, reads, [], ?_, by simp, hreads, List.Chain.nil, by simpa using hi⟩
      split
      · rename_i e h; rw [htr] at h; cases h
      · rename_i m2 r2 h
        rw [htr] at h
        injection h with h
        injection h with h1 h2
        subst h1 h2
        simp
    · obtain ⟨u, hu, -, hulen, -, -, -⟩ := swap_ok hiv hm
      obtain ⟨w, acc, calls, hw, hw2, hacc, hchain, hdepth⟩ :=
        ih (n - m') (by omega) u m' rfl (by omega) hmn
      refine ⟨w, reads ++ [i, m'] ++ acc, m' :: calls, ?_, by simp [hmi, hu, hw2], ?_, ?_, ?_⟩
      · split
        · rename_i e h; rw [htr] at h; cases h
        · rename_i m2 r2 h
          rw [htr] at h
          injection h with h
          injection h with h1 h2
          subst h1 h2
          simp [hmi, hu, hw]
      · intro a ha
        simp only [List.append_assoc, List.cons_append, List.nil_append, List.mem_append,
          List.mem_cons] at ha
        rcases ha with h | h | h | h
        · exact hreads a h
        · omega
        · omega
        · exact hacc a h
      · exact List.Chain.cons ⟨by omega, by omega⟩ hchain
      · have h2 : 2 * (i + 1) ≤ m' + 1 := by omega
        calc (i + 1) * 2 ^ (m' :: calls).length
            = (2 * (i + 1)) * 2 ^ calls.length := by
              rw [List.length_cons, pow_succ]; ring
          _ ≤ (m' + 1) * 2 ^ calls.length := Nat.mul_le_mul_right _ h2
          _ ≤ n := hdepth

/-! ## Vectors longer than `2^32` -/

theorem build_count_overflow_2 : (build_start (2 ^ 32 + 2) + 1).toNat = 0 := by
  rw [build_start, to_int_val, size_sub_val]
  norm_num

theorem extract_start_overflow_2 : extract_start (2 ^ 32 + 1) = 0 := by
  rw [extract_start, to_int_val, size_sub_val]
  norm_num

/-- A vector that starts `0, 1` is not a max-heap; when the build loop does not
run, the build phase returns it as it is. -/
theorem build_heap_zero_one (m : Nat) (hc : (build_start (m + 2) + 1).toNat = 0) :
    build_heap ((0 : Int) :: 1 :: List.replicate m 0) = .ok (0 :: 1 :: List.replicate m 0) ∧
      ¬ is_max_heap ((0 : Int) :: 1 :: List.replicate m 0)
        ((0 : Int) :: 1 :: List.replicate m 0).length := by
  have hlen : ((0 : Int) :: 1 :: List.replicate m 0).length = m + 2 := by
    rw [List.length_cons, List.length_cons, List.length_replicate]
  constructor
  · unfold build_heap
    rw [hlen, hc]
    rfl
  · intro h
    have h1 := h 1 (by omega) (by omega) (by omega)
    simp at h1

/-- The extraction step at index 0 changes nothing. -/
theorem extract_step_zero (v : List α) (h : 0 < v.length) : extract_step 0 v = .ok v := by
  unfold extract_step
  rw [swap_of_lt h h, set_getElem_same v 0 h, set_getElem_same v 0 h]
  simp only
  rw [heapify_unfold, heapify_largest_of_ge v (le_refl 0)]
  simp

/-- A vector whose first element is `1` and whose other `m` elements are `0`
is a max-heap and is not in non-descending order. -/
theorem one_zeros_heap (m : Nat) (hm : 0 < m) :
    is_max_heap ((1 : Int) :: List.replicate m 0) ((1 : Int) :: List.replicate m 0).length ∧
      ¬ ∀ a b (_ : a < ((1 : Int) :: List.replicate m 0).length)
          (_ : b < ((1 : Int) :: List.replicate m 0).length), 0 ≤ a → a ≤ b →
          ((1 : Int) :: List.replicate m 0)[a] ≤ ((1 : Int) :: List.replicate m 0)[b] := by
  have hlen : ((1 : Int) :: List.replicate m 0).length = m + 1 := by
    rw [List.length_cons, List.length_replicate]
  have hzero : ∀ k (hk : k < ((1 : Int) :: List.replicate m 0).length), 0 < k →
      ((1 : Int) :: List.replicate m 0)[k] = 0 := by
    intro k hk hpos
    obtain ⟨k, rfl⟩ : ∃ k', k = k' + 1 := ⟨k - 1, by omega⟩
    rw [List.getElem_cons_succ, List.getElem_replicate]
  constructor
  · intro k hk hpos _
    rw [hzero k hk hpos]
    by_cases hp : 0 < (k - 1) / 2
    · rw [hzero _ (by omega) hp]
    · have h0 : (k - 1) / 2 = 0 := by omega
      have hb : (k - 1) / 2 < ((1 : Int) :: List.replicate m 0).length := by omega
      have : ((1 : Int) :: List.replicate m 0)[(k - 1) / 2] = 1 := by
        simp only [h0, List.getElem_cons_zero]
      rw [this]
      norm_num
  · intro h
    have h1 := h 0 1 (by omega) (by omega) (le_refl 0) (by omega)
    rw [hzero 1 (by omega) (by omega)] at h1
    simp at h1

end HeapifyFacts

/-! ## Loop indices -/

theorem loop_indices_neg {start : Int} (h : start < 0) : loop_indices start = [] := by
  rw [loop_indices, if_neg (by omega)]

theorem loop_indices_nat (k : Nat) :
    loop_indices ((k : Int) - 1) = (List.range k).reverse.map Int.ofNat := by
  induction k with
  | zero => rw [loop_indices_neg (by simp)]; rfl
  | succ k ih =>
    rw [loop_indices, if_pos (by omega)]
    rw [show ((k + 1 : Nat) : Int) - 1 - 1 = (k : Int) - 1 by omega, ih]
    simp [List.range_succ]

theorem loop_indices_eq (start : Int) :
    loop_indices start = (List.range (start + 1).toNat).reverse.map Int.ofNat := by
  by_cases h : 0 ≤ start
  · have := loop_indices_nat (start + 1).toNat
    rw [show (((start + 1).toNat : Nat) : Int) - 1 = start by omega] at this
    exact this
  · rw [loop_indices_neg (by omega)]
    have : (start + 1).toNat = 0 := by omega
    rw [this]
    rfl

theorem count_down_eq_for_each {σ : Type} (body : Nat → σ → Except Fault σ) :
    ∀ (k : Nat) (s : σ), count_down body k s = for_each body (List.range k).reverse s := by
  intro k
  induction k with
  | zero => intro s; rfl
  | succ k ih =>
    intro s
    rw [List.range_succ, List.reverse_append]
    simp only [List.reverse_cons, List.reverse_nil, List.nil_append, List.singleton_append,
      count_down, for_each]
    cases body k s with
    | error e => rfl
    | ok t => exact ih t

/-- The count-down loop started at the `int` value `start` runs its body at
the indices `loop_indices start`. -/
theorem count_down_loop_indices {σ : Type} (body : Nat → σ → Except Fault σ) (start : Int)
    (s : σ) :
    count_down body (start + 1).toNat s
      = for_each body ((loop_indices start).map Int.toNat) s := by
  rw [count_down_eq_for_each, loop_indices_eq, List.map_map]
  have hid : (Int.toNat ∘ Int.ofNat) = id := by
    funext j
    simp
  rw [hid, List.map_id]

theorem build_start_of_le {n : Nat} (h : n ≤ 2 ^ 32) : build_start n = ((n / 2 : Nat) : Int) - 1 := by
  norm_num at h
  rw [build_start, to_int_val, size_sub_val]
  split <;> split <;> omega

theorem extract_start_of_le {n : Nat} (h : n ≤ 2 ^ 31) : extract_start n = (n : Int) - 1 := by
  norm_num at h
  rw [extract_start, to_int_val, size_sub_val]
  split <;> split <;> omega


/-! ## The traced `estimate` -/

section TracedEstimateFacts

variable {α : Type} [LinearOrder α]

end TracedEstimateFacts

/-! ## The driver -/

theorem trace_text_append (a b : List MainEvent) :
    trace_text (a ++ b) = trace_text a ++ trace_text b := by
  induction a with
  | nil => simp [trace_text]
  | cons e es ih => simp [trace_text, ih, String.append_assoc]

theorem log_result_eq (out : String) (p : Int × Int) (type : String) :
    log_result out p type = out ++ log_result "" p type := by
  simp [log_result, String.append_assoc]

theorem log_header_eq (out : String) (size : Nat) :
    log_header out size = out ++ log_header "" size := by
  simp [log_header]

section DriverFacts

variable {α : Type} [LinearOrder α]

theorem run_test_inv {env : Env α} {lib : HeapLibrary α} {ty : ElemType} {size : Nat}
    {s s' : MainState} {p : Int × Int} (h : run_test env lib ty size s = .ok (p, s')) :
    ∃ w1, estimate env s.world size simple_heapsort = .ok (p.1, w1) ∧
      estimate env w1 size (std_strategy lib) = .ok (p.2, s'.world) ∧
      s'.out = s.out ∧
      s'.trace = s.trace ++ [.estimated ty .simple size p.1, .estimated ty .std size p.2] := by
  unfold run_test at h
  cases h1 : estimate env s.world size simple_heapsort with
  | error e => rw [h1] at h; cases h
  | ok r1 =>
    obtain ⟨a, w1⟩ := r1
    rw [h1] at h
    simp only at h
    cases h2 : estimate env w1 size (std_strategy lib) with
    | error e => rw [h2] at h; cases h
    | ok r2 =>
      obtain ⟨b, w2⟩ := r2
      rw [h2] at h
      simp only at h
      injection h with h
      injection h with hp hs
      subst hp hs
      exact ⟨w1, rfl, h2, rfl, rfl⟩

theorem test_and_log_inv {env : Env α} {lib : HeapLibrary α} {ty : ElemType} {size : Nat}
    {s s' : MainState} (h : test_and_log env lib ty size s = .ok s') :
    ∃ p : Int × Int,
      s'.trace = s.trace ++ [.estimated ty .simple size p.1, .estimated ty .std size p.2,
        .logged ty p] ∧
      s'.out = s.out ++ log_result "" p ty.name ∧
      estimated_pair env lib size s.world p s'.world := by
  unfold test_and_log at h
  cases h1 : run_test env lib ty size s with
  | error e => rw [h1] at h; cases h
  | ok r =>
    obtain ⟨p, s1⟩ := r
    rw [h1] at h
    simp only at h
    injection h with h
    subst h
    obtain ⟨w1, he1, he2, hout, htrace⟩ := run_test_inv h1
    refine ⟨p, ?_, ?_, ⟨w1, he1, he2⟩⟩
    · simp [htrace]
    · simp only
      rw [log_result_eq, hout]

end DriverFacts

section MainFacts

variable {F D : Type} [LinearOrder F] [LinearOrder D]

theorem main_body_inv {M : Machine F D} {L : Libraries F D} {size : Nat} {s s' : MainState}
    (h : main_body M L size s = .ok s') :
    ∃ q, s'.trace = s.trace ++ size_block size q ∧
      s'.out = s.out ++ trace_text (size_block size q) ∧
      estimated_size M L size s.world q s'.world := by
  unfold main_body at h
  cases h1 : test_and_log M.env_int L.lib_int .int size
      { world := s.world, out := log_header s.out size,
        trace := s.trace ++ [.header size] } with
  | error e => rw [h1] at h; cases h
  | ok s1 =>
    rw [h1] at h
    simp only at h
    cases h2 : test_and_log M.env_float L.lib_float .float size s1 with
    | error e => rw [h2] at h; cases h
    | ok s2 =>
      rw [h2] at h
      simp only at h
      obtain ⟨pi, ht1, ho1, he1⟩ := test_and_log_inv h1
      obtain ⟨pf, ht2, ho2, he2⟩ := test_and_log_inv h2
      obtain ⟨pd, ht3, ho3, he3⟩ := test_and_log_inv h
      refine ⟨(pi, pf, pd), ?_, ?_, ⟨s1.world, s2.world, he1, he2, he3⟩⟩
      · rw [ht3, ht2, ht1]
        simp [size_block]
      · rw [ho3, ho2, ho1]
        simp only
        rw [log_header_eq]
        simp [size_block, trace_text, MainEvent.text, String.append_assoc]

/-- The events and the output of a successful loop over a list of sizes. -/
theorem for_each_main_body {M : Machine F D} {L : Libraries F D} :
    ∀ (xs : List Nat) (s s' : MainState), for_each (main_body M L) xs s = .ok s' →
      ∃ qs : List ((Int × Int) × (Int × Int) × (Int × Int)), qs.length = xs.length ∧
        s'.trace = s.trace ++ (xs.zip qs).flatMap (fun xq => size_block xq.1 xq.2) ∧
        s'.out = s.out ++ trace_text ((xs.zip qs).flatMap (fun xq => size_block xq.1 xq.2)) ∧
        estimated_sizes M L xs qs s.world s'.world := by
  intro xs
  induction xs with
  | nil =>
    intro s s' h
    simp only [for_each] at h
    injection h with h
    subst h
    exact ⟨[], rfl, by simp, by simp [trace_text], rfl⟩
  | cons x xs ih =>
    intro s s' h
    simp only [for_each] at h
    cases h1 : main_body M L x s with
    | error e => rw [h1] at h; cases h
    | ok s1 =>
      rw [h1] at h
      simp only at h
      obtain ⟨q, ht1, ho1, he1⟩ := main_body_inv h1
      obtain ⟨qs, hlen, ht, ho, he⟩ := ih s1 s' h
      refine ⟨q :: qs, by simp [hlen], ?_, ?_, ⟨s1.world, he1, he⟩⟩
      · rw [ht, ht1]
        simp
      · rw [ho, ho1]
        simp [trace_text_append, String.append_assoc]

end MainFacts

theorem narrowed_sum_bounds {β : Type} (env : Env β) (w : World)
    (hb : ∀ k, 0 ≤ env.millis k ∧ env.millis k ≤ 400000000) :
    ∀ j, 0 ≤ narrowed_sum env w j ∧ narrowed_sum env w j ≤ j * 400000000 := by
  intro j
  induction j with
  | zero => simp [narrowed_sum]
  | succ j ih =>
    have hfit : fits_int (env.millis (w.timed_calls + j)) := by
      have := hb (w.timed_calls + j)
      unfold fits_int INT_MIN INT_MAX
      constructor <;> omega
    rw [narrowed_sum_succ, narrow_of_fits hfit]
    have := hb (w.timed_calls + j)
    push_cast
    constructor <;> omega

section DriverRuns

variable {α : Type} [LinearOrder α]

/-- With timings between 0 and 400000000 ms and a strategy that sorts,
`estimate` returns. -/
theorem estimate_ok (env : Env α) (w : World) (size : Nat)
    (f : List α → Except Fault (List α))
    (hb : ∀ k, 0 ≤ env.millis k ∧ env.millis k ≤ 400000000)
    (hf : ∀ k, ∃ out, f (nth_sequence env w size k) = .ok out ∧ ¬ has_inversion out) :
    ∃ avg, estimate env w size f
      = .ok (avg, { rand_calls := w.rand_calls + (WARMUPS.toNat + TEST_RUNS.toNat) * size,
                    timed_calls := w.timed_calls + TEST_RUNS.toNat }) := by
  refine ⟨_, estimate_value env w size f ?_ ?_⟩
  · intro k _
    obtain ⟨out, hout, hs⟩ := hf k
    exact ⟨out, hout, fun _ => hs⟩
  · intro j hj
    have hj5 : j ≤ 5 := hj
    obtain ⟨h1, h2⟩ := narrowed_sum_bounds env w hb j
    unfold fits_int INT_MIN INT_MAX
    have hj' : (j : Int) ≤ 5 := by exact_mod_cast hj5
    constructor <;> omega

theorem test_and_log_ok (env : Env α) (lib : HeapLibrary α) (ty : ElemType) (size : Nat)
    (s : MainState) (hsize : size ≤ 2 ^ 31)
    (hb : ∀ k, 0 ≤ env.millis k ∧ env.millis k ≤ 400000000) :
    ∃ s', test_and_log env lib ty size s = .ok s' := by
  obtain ⟨a, ha⟩ := estimate_ok env s.world size simple_heapsort hb (by
    intro k
    obtain ⟨out, hout, -, hsorted⟩ := simple_heapsort_sorted (nth_sequence env s.world size k)
      (by rw [nth_sequence_length]; exact hsize)
    exact ⟨out, hout, (not_has_inversion_iff out).mpr hsorted⟩)
  obtain ⟨b, hb2⟩ := estimate_ok env
    { rand_calls := s.world.rand_calls + (WARMUPS.toNat + TEST_RUNS.toNat) * size,
      timed_calls := s.world.timed_calls + TEST_RUNS.toNat } size (std_strategy lib) hb (by
    intro k
    exact ⟨_, rfl, (not_has_inversion_iff _).mpr (std_heapsort_spec lib _).2⟩)
  unfold test_and_log run_test
  rw [ha]
  simp only
  rw [hb2]
  exact ⟨_, rfl⟩

end DriverRuns

section MainRuns

variable {F D : Type} [LinearOrder F] [LinearOrder D]

theorem main_body_ok (M : Machine F D) (L : Libraries F D) (size : Nat) (s : MainState)
    (hsize : size ≤ 2 ^ 31) (hb : ∀ k, 0 ≤ M.millis k ∧ M.millis k ≤ 400000000) :
    ∃ s', main_body M L size s = .ok s' := by
  obtain ⟨s1, h1⟩ := test_and_log_ok M.env_int L.lib_int .int size
    { world := s.world, out := log_header s.out size, trace := s.trace ++ [.header size] }
    hsize hb
  obtain ⟨s2, h2⟩ := test_and_log_ok M.env_float L.lib_float .float size s1 hsize hb
  obtain ⟨s3, h3⟩ := test_and_log_ok M.env_double L.lib_double .double size s2 hsize hb
  refine ⟨s3, ?_⟩
  unfold main_body
  rw [h1]
  simp only
  rw [h2]
  exact h3

theorem for_each_ok {β σ : Type} (body : β → σ → Except Fault σ) :
    ∀ (xs : List β) (s : σ), (∀ x ∈ xs, ∀ t, ∃ t', body x t = .ok t') →
      ∃ s', for_each body xs s = .ok s' := by
  intro xs
  induction xs with
  | nil => intro s _; exact ⟨s, rfl⟩
  | cons x xs ih =>
    intro s h
    obtain ⟨t, ht⟩ := h x (List.mem_cons_self x xs) s
    obtain ⟨u, hu⟩ := ih t (fun y hy => h y (List.mem_cons_of_mem x hy))
    exact ⟨u, by simp only [for_each, ht, hu]⟩

/-- With timings between 0 and 400000000 ms the run of `main` completes. -/
theorem main_ok (M : Machine F D) (L : Libraries F D) (w : World)
    (hb : ∀ k, 0 ≤ M.millis k ∧ M.millis k ≤ 400000000) :
    ∃ s, main M L w = .ok s := by
  unfold main
  apply for_each_ok
  intro x hx t
  apply main_body_ok M L x t _ hb
  simp only [SIZES, List.mem_cons, List.mem_singleton, List.not_mem_nil, or_false] at hx
  rcases hx with h | h | h | h | h <;> subst h <;> norm_num

end MainRuns

/-! ## Claims about `heapify` -/

section HeapifyClaims

variable {α : Type} [LinearOrder α]

/-- C14: if the subtrees rooted at the two children of `i` satisfy the
max-heap property below `n`, then `heapify(v, n, i)` returns and the subtree
rooted at `i` satisfies the max-heap property below `n`. -/
theorem heapify_restores_subtree_heap (v : List α) (n i : Nat) (hn : n ≤ v.length)
    (hi : i < n) (hl : subtree_heap v n (2 * i + 1)) (hr : subtree_heap v n (2 * i + 2)) :
    ∃ w, heapify v n i = .ok w ∧ subtree_heap w n i :=
  subtree_heap_of_heapify hn hi hl hr

/-- In a vector of five elements the nodes 1 and 2 have no grandchildren, so
the heap property of their subtrees is the order between a node and its
children. -/
theorem sample_subtrees :
    subtree_heap ([1, 5, 3, 4, 2] : List Int) 5 (2 * 0 + 1) ∧
      subtree_heap ([1, 5, 3, 4, 2] : List Int) 5 (2 * 0 + 2) := by
  constructor
  · intro j c hj hc hsub hcj hcn
    have hge := in_subtree_ge hsub
    have hj1 : j = 1 := by omega
    subst hj1
    rcases hcj with h | h <;> subst h <;> simp
  · intro j c hj hc hsub hcj hcn
    have hge := in_subtree_ge hsub
    omega

/-- C14, witness: the vector `[1, 5, 3, 4, 2]` with `n = 5` and `i = 0`. -/
theorem heapify_restores_subtree_heap_witness :
    5 ≤ ([1, 5, 3, 4, 2] : List Int).length ∧ 0 < 5 ∧
      ∃ w, heapify ([1, 5, 3, 4, 2] : List Int) 5 0 = .ok w ∧ subtree_heap w 5 0 :=
  ⟨by decide, by decide,
    heapify_restores_subtree_heap [1, 5, 3, 4, 2] 5 0 (by decide) (by decide)
      sample_subtrees.1 sample_subtrees.2⟩

/-- C18: when the node is at least each of its children below `n`, `heapify`
leaves the vector unchanged; otherwise the index `m` it selects is a child that
exceeds the node and is at least both children, the value `v[m]` ends at
position `i`, and `m` is the left child whenever the two children are equal. -/
theorem heapify_swaps_only_if_child_wins (v : List α) (n i : Nat) (hn : n ≤ v.length)
    (hi : i < n) :
    ((∀ c (_ : c < v.length), c < n → (c = 2 * i + 1 ∨ c = 2 * i + 2) → v[c] ≤ v[i]) →
        heapify v n i = .ok v) ∧
      ∃ m w, ∃ (_ : m < v.length) (_ : i < w.length),
        heapify_largest v n i = .ok m ∧ heapify v n i = .ok w ∧
        (m = i → w = v) ∧
        (m ≠ i → (m = 2 * i + 1 ∨ m = 2 * i + 2) ∧ m < n ∧ w[i] = v[m] ∧ v[i] < v[m] ∧
          (∀ c (_ : c < v.length), c < n → (c = 2 * i + 1 ∨ c = 2 * i + 2) → v[c] ≤ v[m]) ∧
          (∀ (_ : 2 * i + 2 < v.length), 2 * i + 2 < n → v[2 * i + 1] = v[2 * i + 2] →
            m = 2 * i + 1)) := by
  have hiv : i < v.length := by omega
  constructor
  · intro h
    exact heapify_of_dominates hn (fun c hc _ hcn hci => h c hc hcn hci)
  · obtain ⟨m, hm, hsel, hmn, hcases, hgt, hmax⟩ := heapify_largest_spec hn hi
    obtain ⟨w, hw, -, hlen, -⟩ := heapify_ok n (n - i) v i rfl hn
    refine ⟨m, w, hm, by omega, hsel, hw, ?_, ?_⟩
    · intro hmi
      rw [heapify_unfold, hsel] at hw
      simp only [hmi, ne_eq, not_true_eq_false, if_false] at hw
      injection hw with hw
      exact hw.symm
    · intro hmi
      have hchild : m = 2 * i + 1 ∨ m = 2 * i + 2 := by
        rcases hcases with h | h | h
        · exact absurd h hmi
        · exact Or.inl h
        · exact Or.inr h
      refine ⟨hchild, hmn, ?_, hgt hmi, hmax, ?_⟩
      · rw [heapify_unfold, hsel] at hw
        simp only [ne_eq, hmi, not_false_eq_true, if_true] at hw
        obtain ⟨u, hu, -, hulen, -, hui, -⟩ := swap_ok hiv hm
        rw [hu] at hw
        simp only at hw
        obtain ⟨w2, hw2, -, -, hframe⟩ := heapify_ok n (n - m) u m rfl (by omega)
        rw [hw2] at hw
        injection hw with hw
        subst hw
        have h1 := hframe i (Or.inl (by omega))
        rw [hui] at h1
        rw [List.getElem?_eq_getElem (by omega)] at h1
        exact Option.some.inj h1
      · intro hr hrn heq
        rcases hchild with h | h
        · exact h
        · subst h
          have := heapify_largest_right hsel hr
          rw [heq] at this
          exact absurd this (lt_irrefl _)

/-- C18, witness: on `[1, 5, 5]` with `n = 3` and `i = 0` both children equal
`5` and exceed the node; `heapify` selects the left child. -/
theorem heapify_swaps_only_if_child_wins_witness :
    3 ≤ ([1, 5, 5] : List Int).length ∧ 0 < 3 ∧
      ∃ w, heapify_largest ([1, 5, 5] : List Int) 3 0 = .ok 1 ∧
        heapify ([1, 5, 5] : List Int) 3 0 = .ok w ∧ w[0]? = some 5 := by
  refine ⟨by decide, by decide, ?_⟩
  obtain ⟨-, m, w, hm, hw0, hsel, hw, -, hswap⟩ :=
    heapify_swaps_only_if_child_wins ([1, 5, 5] : List Int) 3 0 (by decide) (by decide)
  have hm1 : m = 1 := by
    by_cases hmi : m = 0
    · subst hmi
      rw [heapify_largest] at hsel
      simp [read] at hsel
    · exact (hswap hmi).2.2.2.2.2 (by decide) (by decide) rfl
  subst hm1
  refine ⟨w, hsel, hw, ?_⟩
  rw [List.getElem?_eq_getElem hw0, (hswap (by decide)).2.2.1]
  rfl

/-- C19: `heapify(v, n, i)` returns a permutation of `v` of the same length in
which every position at or beyond `n` and every position outside the subtree
rooted at `i` is unchanged; in particular an extraction step at index `j`
changes no position beyond `j`. -/
theorem heapify_changes_only_subtree (v : List α) (n i : Nat) (hn : n ≤ v.length) :
    (∃ w, heapify v n i = .ok w ∧ w.Perm v ∧ w.length = v.length ∧
        (∀ k, n ≤ k → w[k]? = v[k]?) ∧
        (∀ k, k < n → ¬ in_subtree i k → w[k]? = v[k]?)) ∧
      ∀ j, j < v.length → ∃ w, extract_step j v = .ok w ∧ ∀ k, j < k → w[k]? = v[k]? := by
  constructor
  · obtain ⟨w, hw, hperm, hlen, hframe⟩ := heapify_ok n (n - i) v i rfl hn
    refine ⟨w, hw, hperm, hlen, fun k hk => hframe k (Or.inr hk), ?_⟩
    intro k _ hk
    exact heapify_frame_subtree n (n - i) v w i rfl hn hw k hk
  · intro j hj
    obtain ⟨w, hw, -, -, hframe⟩ := extract_step_ok hj
    exact ⟨w, hw, hframe⟩

/-- C19, witness: the vector `[1, 5, 3, 4, 2]` with `n = 4` and `i = 1`. -/
theorem heapify_changes_only_subtree_witness :
    4 ≤ ([1, 5, 3, 4, 2] : List Int).length ∧
      ∃ w, heapify ([1, 5, 3, 4, 2] : List Int) 4 1 = .ok w ∧
        w.Perm [1, 5, 3, 4, 2] ∧ w[4]? = some 2 ∧ w[0]? = some 1 :=
  ⟨by decide,
    let ⟨⟨w, hw, hperm, _, hbeyond, houtside⟩, _⟩ :=
      heapify_changes_only_subtree ([1, 5, 3, 4, 2] : List Int) 4 1 (by decide)
    ⟨w, hw, hperm, by rw [hbeyond 4 (by decide)]; rfl,
      by rw [houtside 0 (by decide) (fun h => absurd (in_subtree_ge h) (by decide))]; rfl⟩⟩


/-- C17: for `n <= len(v)` and `i < n` the call `heapify(v, n, i)` returns;
every index at which it reads or writes the vector is below `n`; every nested
recursive call is made on a child `2 * j + 1` or `2 * j + 2` of the index `j`
of the call that makes it, which is larger than `j`; and the number of nested
calls is at most `floor(log2(n))`. -/
theorem heapify_terminates_in_bounds (v : List α) (n i : Nat) (hn : n ≤ v.length)
    (hi : i < n) :
    ∃ w accesses calls, heapify_traced v n i = .ok (w, accesses, calls) ∧
      heapify v n i = .ok w ∧ (∀ a ∈ accesses, a < n) ∧
      List.Chain (fun j c => (c = 2 * j + 1 ∨ c = 2 * j + 2) ∧ j < c) i calls ∧
      calls.length ≤ Nat.log 2 n := by
  obtain ⟨w, accesses, calls, h1, h2, h3, h4, h5⟩ := heapify_traced_spec n (n - i) v i rfl hn hi
  refine ⟨w, accesses, calls, h1, h2, h3, h4, ?_⟩
  apply Nat.le_log_of_pow_le (by norm_num)
  calc 2 ^ calls.length ≤ (i + 1) * 2 ^ calls.length := Nat.le_mul_of_pos_left _ (by omega)
    _ ≤ n := h5

/-- C17, witness: the vector `[1, 5, 3, 4, 2, 9, 9]` with `n = 7` and
`i = 0`. -/
theorem heapify_terminates_in_bounds_witness :
    7 ≤ ([1, 5, 3, 4, 2, 9, 9] : List Int).length ∧ 0 < 7 ∧
      ∃ w accesses calls,
        heapify_traced ([1, 5, 3, 4, 2, 9, 9] : List Int) 7 0 = .ok (w, accesses, calls) ∧
        (∀ a ∈ accesses, a < 7) ∧ calls.length ≤ Nat.log 2 7 :=
  ⟨by decide, by decide,
    let ⟨w, accesses, calls, h1, _, h3, _, h5⟩ :=
      heapify_terminates_in_bounds ([1, 5, 3, 4, 2, 9, 9] : List Int) 7 0 (by decide)
        (by decide)
    ⟨w, accesses, calls, h1, h3, h5⟩⟩

end HeapifyClaims

/-! ## Claims about the loops of `simple_heapsort` -/

section LoopClaims

variable {α : Type} [LinearOrder α]

/-- C15: the claim that the build phase leaves a max-heap with a maximum at
index 0 fails on the vector of length `2^32 + 2` that starts `0, 1` and holds
`0` elsewhere: the start value `n / 2 - 1 = 2^31` of the build loop narrows to
a negative `int`, the loop does not run, and the vector comes out of the build
phase unchanged with `v[0] < v[1]`. -/
theorem build_heap_not_heap_at_large_length :
    ((0 : Int) :: 1 :: List.replicate (2 ^ 32) 0).length = 2 ^ 32 + 2 ∧
      build_start (2 ^ 32 + 2) = -2147483648 ∧
      build_heap ((0 : Int) :: 1 :: List.replicate (2 ^ 32) 0)
        = .ok (0 :: 1 :: List.replicate (2 ^ 32) 0) ∧
      ¬ is_max_heap ((0 : Int) :: 1 :: List.replicate (2 ^ 32) 0)
        ((0 : Int) :: 1 :: List.replicate (2 ^ 32) 0).length :=
  ⟨by rw [List.length_cons, List.length_cons, List.length_replicate],
    by rw [build_start, to_int_val, size_sub_val]; norm_num,
    (build_heap_zero_one (2 ^ 32) build_count_overflow_2).1,
    (build_heap_zero_one (2 ^ 32) build_count_overflow_2).2⟩

/-- C16: the claim about the state after an iteration of the extraction loop
fails on the max-heap of length `2^32 + 1` whose first element is `1` and whose
other elements are `0`: the start value `n - 1 = 2^32` narrows to the `int` 0,
so the first iteration has index 0; it changes nothing, and after it the suffix
`v[0..N)` is not in non-descending order. -/
theorem extract_invariant_fails_at_large_length :
    ((1 : Int) :: List.replicate (2 ^ 32) 0).length = 2 ^ 32 + 1 ∧
      is_max_heap ((1 : Int) :: List.replicate (2 ^ 32) 0)
        ((1 : Int) :: List.replicate (2 ^ 32) 0).length ∧
      extract_start (2 ^ 32 + 1) = 0 ∧
      extract_step 0 ((1 : Int) :: List.replicate (2 ^ 32) 0)
        = .ok (1 :: List.replicate (2 ^ 32) 0) ∧
      ¬ ∀ a b (_ : a < ((1 : Int) :: List.replicate (2 ^ 32) 0).length)
          (_ : b < ((1 : Int) :: List.replicate (2 ^ 32) 0).length), 0 ≤ a → a ≤ b →
          ((1 : Int) :: List.replicate (2 ^ 32) 0)[a]
            ≤ ((1 : Int) :: List.replicate (2 ^ 32) 0)[b] :=
  ⟨by rw [List.length_cons, List.length_replicate],
    (one_zeros_heap (2 ^ 32) (by norm_num)).1,
    extract_start_overflow_2,
    extract_step_zero _ (by rw [List.length_cons]; omega),
    (one_zeros_heap (2 ^ 32) (by norm_num)).2⟩

/-- C20: for a length `N <= 2^31 - 1` the start value of the build loop is
`N / 2 - 1` (which is `-1` for `N <= 1`) and the start value of the
extraction loop is `N - 1`; the build loop calls `heapify(v, n, i)` at the
`N / 2` indices `N / 2 - 1, ..., 0` and the extraction loop makes its `N`
iterations at the indices `N - 1, ..., 0`; none of these indices is
negative. -/
theorem loop_index_arithmetic (v : List α) (h : v.length ≤ 2 ^ 31 - 1) :
    build_start v.length = ((v.length / 2 : Nat) : Int) - 1 ∧
      (v.length ≤ 1 → build_start v.length = -1) ∧
      extract_start v.length = (v.length : Int) - 1 ∧
      loop_indices (build_start v.length) = (List.range (v.length / 2)).reverse.map Int.ofNat ∧
      loop_indices (extract_start v.length) = (List.range v.length).reverse.map Int.ofNat ∧
      (loop_indices (build_start v.length)).length = v.length / 2 ∧
      (loop_indices (extract_start v.length)).length = v.length ∧
      (∀ i ∈ loop_indices (build_start v.length) ++ loop_indices (extract_start v.length),
        0 ≤ i) ∧
      build_heap v = for_each (fun i w => heapify w v.length i)
        ((loop_indices (build_start v.length)).map Int.toNat) v ∧
      ∀ u, build_heap v = .ok u →
        simple_heapsort v = for_each extract_step
          ((loop_indices (extract_start v.length)).map Int.toNat) u := by
  have h32 : v.length ≤ 2 ^ 32 := by
    have : (2 : Nat) ^ 31 - 1 ≤ 2 ^ 32 := by norm_num
    omega
  have h31 : v.length ≤ 2 ^ 31 := by omega
  have hb := build_start_of_le h32
  have he := extract_start_of_le h31
  have hbi : loop_indices (build_start v.length)
      = (List.range (v.length / 2)).reverse.map Int.ofNat := by
    rw [loop_indices_eq, build_count_of_le h32]
  have hei : loop_indices (extract_start v.length)
      = (List.range v.length).reverse.map Int.ofNat := by
    rw [loop_indices_eq, extract_count_of_le h31]
  refine ⟨hb, ?_, he, hbi, hei, ?_, ?_, ?_, ?_, ?_⟩
  · intro h1
    rw [hb]
    have : v.length / 2 = 0 := by omega
    rw [this]
    rfl
  · rw [hbi]; simp
  · rw [hei]; simp
  · intro i hi
    rw [hbi, hei] at hi
    simp only [List.mem_append, List.mem_map, List.mem_reverse, List.mem_range] at hi
    rcases hi with ⟨j, _, hj⟩ | ⟨j, _, hj⟩ <;> rw [← hj] <;> exact Int.ofNat_nonneg j
  · unfold build_heap
    exact count_down_loop_indices _ _ _
  · intro u hu
    rw [simple_heapsort_of_build hu]
    exact count_down_loop_indices _ _ _

/-- C20, witness: a vector of five elements. -/
theorem loop_index_arithmetic_witness :
    ([3, 1, 4, 1, 5] : List Int).length ≤ 2 ^ 31 - 1 ∧
      build_start ([3, 1, 4, 1, 5] : List Int).length = 1 ∧
      extract_start ([3, 1, 4, 1, 5] : List Int).length = 4 ∧
      loop_indices (build_start ([3, 1, 4, 1, 5] : List Int).length) = [1, 0] ∧
      loop_indices (extract_start ([3, 1, 4, 1, 5] : List Int).length) = [4, 3, 2, 1, 0] :=
  have hle : ([3, 1, 4, 1, 5] : List Int).length ≤ 2 ^ 31 - 1 := by decide
  have h := loop_index_arithmetic ([3, 1, 4, 1, 5] : List Int) hle
  ⟨hle, h.1, h.2.2.1, h.2.2.2.1, h.2.2.2.2.1⟩

end LoopClaims

/-! ## Claims about the passes of `estimate` and about the driver -/

section DriverClaims

variable {α : Type} [LinearOrder α]

/-- C12: `log_result` appends to the output the three lines `-- Type: t`,
`---- Simple: <a>ms` and `---- Std: <b>ms`, each ended by a newline, in this
order, with `a` and `b` as decimal numerals; in the pair `run_test` returns,
`a` is what `estimate` returned for `simple_heapsort` and `b` what it then
returned for `std_heapsort`. -/
theorem log_result_three_lines (out : String) (a b : Int) (t : String) :
    log_result out (a, b) t
        = out ++ ("-- Type: " ++ t ++ "\n") ++ ("---- Simple: " ++ decimal a ++ "ms\n")
            ++ ("---- Std: " ++ decimal b ++ "ms\n") ∧
      log_result "" (91, 79) "int" = "-- Type: int\n---- Simple: 91ms\n---- Std: 79ms\n" ∧
      log_result "" (0, -429496729) "double"
        = "-- Type: double\n---- Simple: 0ms\n---- Std: -429496729ms\n" ∧
      ∀ (env : Env α) (lib : HeapLibrary α) (ty : ElemType) (size : Nat) (s s' : MainState)
        (p : Int × Int), run_test env lib ty size s = .ok (p, s') →
        ∃ w1, estimate env s.world size simple_heapsort = .ok (p.1, w1) ∧
          estimate env w1 size (std_strategy lib) = .ok (p.2, s'.world) := by
  refine ⟨rfl, by decide, by decide, ?_⟩
  intro env lib ty size s s' p h
  obtain ⟨w1, h1, h2, -, -⟩ := run_test_inv h
  exact ⟨w1, h1, h2⟩

end DriverClaims

section MainClaims

variable {F D : Type} [LinearOrder F] [LinearOrder D]

/-- C13: a run of `main` that completes goes through the sizes 500000, 750000,
1000000, 2500000, 5000000 in this order; for each size it writes the header
line and then, for `int`, `float` and `double` in this order, calls `estimate`
with `simple_heapsort` and then with `std_heapsort` at that size and logs the
pair of the two results; the output is the text of these events.  The results
in the events are what these calls of `estimate` return: the calls form one
chain through the outside state, from the state `main` starts in to the state
it ends in, each call started in the state the call before left. -/
theorem main_runs_sizes_and_types_in_order (M : Machine F D) (L : Libraries F D) (w : World)
    (s : MainState) (h : main M L w = .ok s) :
    ∃ qs : List ((Int × Int) × (Int × Int) × (Int × Int)), qs.length = 5 ∧
      s.trace = (List.zip [500000, 750000, 1000000, 2500000, 5000000] qs).flatMap
        (fun nq =>
          [.header nq.1,
           .estimated .int .simple nq.1 nq.2.1.1, .estimated .int .std nq.1 nq.2.1.2,
           .logged .int nq.2.1,
           .estimated .float .simple nq.1 nq.2.2.1.1, .estimated .float .std nq.1 nq.2.2.1.2,
           .logged .float nq.2.2.1,
           .estimated .double .simple nq.1 nq.2.2.2.1, .estimated .double .std nq.1 nq.2.2.2.2,
           .logged .double nq.2.2.2]) ∧
      s.out = trace_text s.trace ∧
      (∀ n, (MainEvent.header n).text = "Running tests with size " ++ decimal n ++ ":\n") ∧
      (∀ ty p, (MainEvent.logged ty p).text = log_result "" p ty.name) ∧
      (∀ ty st n r, (MainEvent.estimated ty st n r).text = "") ∧
      estimated_sizes M L [500000, 750000, 1000000, 2500000, 5000000] qs w s.world := by
  unfold main at h
  obtain ⟨qs, hlen, htrace, hout, hcalls⟩ := for_each_main_body SIZES _ s h
  refine ⟨qs, hlen, ?_, ?_, ?_, fun _ _ => rfl, fun _ _ _ _ => rfl, hcalls⟩
  · rw [htrace]
    rfl
  · rw [hout, htrace]
    simp
  · intro n
    simp [MainEvent.text, log_header]

/-- C13, witness: on the sample machine, where every timed call takes 7 ms,
the run of `main` completes. -/
theorem main_runs_sizes_and_types_in_order_witness :
    ∃ s, main sample_machine sample_libraries ⟨0, 0⟩ = .ok s ∧
      ∃ qs : List ((Int × Int) × (Int × Int) × (Int × Int)), qs.length = 5 ∧
        s.trace.length = 50 ∧ s.out = trace_text s.trace ∧
        estimated_sizes sample_machine sample_libraries
          [500000, 750000, 1000000, 2500000, 5000000] qs ⟨0, 0⟩ s.world := by
  obtain ⟨s, hs⟩ := main_ok sample_machine sample_libraries ⟨0, 0⟩
    (fun _ => ⟨by show (0 : Int) ≤ 7; decide, by show (7 : Int) ≤ 400000000; decide⟩)
  obtain ⟨qs, hlen, htrace, hout, -, -, -, hcalls⟩ :=
    main_runs_sizes_and_types_in_order sample_machine sample_libraries ⟨0, 0⟩ s hs
  refine ⟨s, hs, qs, hlen, ?_, hout, hcalls⟩
  rw [htrace]
  match qs, hlen with
  | [q1, q2, q3, q4, q5], _ => rfl

end MainClaims

end HeapBench
